import Mathlib

/-!
Verification of the core pipeline of genomicUtils
(genomicUtils/gexBamReadTypeProp.py): per-cell read-type proportion
counting over binned BAM input, with local and global UMI deduplication.

The Python functions are embedded as executable Lean definitions.
Alignment records are modelled with the fields the pipeline reads:
reference name, start coordinate, end coordinate of the alignment
(pysam fetch yields reads overlapping a range), mapping quality, and
the optional CB / UB / RE tags.  The xxh64 fingerprint of the joined
string is modelled by the joined string itself: xxh64 is a fixed
deterministic function of that string, so every key-equality statement
that follows from equality of joined strings is preserved exactly;
64-bit collisions between distinct joined strings are outside the model.
Python floats are modelled as exact rationals.
-/

/-- One alignment record, with the attributes read by the pipeline. -/
structure BamRead where
  ref : String
  pos : Int
  alnEnd : Int
  mapq : Nat
  cb : Option String
  ub : Option String
  re : Option String
deriving DecidableEq, Repr

/-- One work unit (input_bam, reference, start, end) from get_bam_chunks;
the end field of the source is called stop here because end is a Lean keyword. -/
structure Chunk where
  ref : String
  start : Int
  stop : Int
deriving DecidableEq, Repr

/-- One element of the umi_records list built by process_chunk_streaming. -/
structure UmiRecord where
  cb : String
  ub : String
  region_type : String
  umi_hash : String
deriving DecidableEq, Repr

/-- The per-cell counter dictionary value of merge_chunk_results_streaming. -/
structure Counts where
  E : Nat
  N : Nat
  I : Nat
deriving DecidableEq, Repr

/-- cell_data: insertion-ordered association list, as a Python dict. -/
abbrev CellData := List (String × Counts)

/-- Embeds hash_umi: the source computes xxhash.xxh64 of the joined string
cb ++ colon ++ ub; the model uses the joined string itself as the key
(faithful up to 64-bit collisions of xxh64, see the file header). -/
def hash_umi (cb : String) (ub : String) : String :=
  cb ++ ":" ++ ub

/-- The region type the source reads: the RE tag if present, else the empty string. -/
def regionOf (r : BamRead) : String :=
  r.re.getD ""

/-- The mapping-quality and tag-presence filter of process_chunk_streaming. -/
def tag_pass (r : BamRead) : Bool :=
  r.mapq == 255 && r.cb.isSome && r.ub.isSome

/-- The region code check of process_chunk_streaming. -/
def region_valid (r : BamRead) : Bool :=
  regionOf r == "E" || regionOf r == "N" || regionOf r == "I"

/-- The dedup key a record would receive (meaningful when both tags are present). -/
def keyOf (r : BamRead) : String :=
  hash_umi (r.cb.getD "") (r.ub.getD "")

/-- Embeds the record loop of process_chunk_streaming: MAPQ filter, CB/UB
presence, local dedup against umi_seen (the key is inserted before the
region check, exactly as in the source), then the region filter decides
whether a UmiRecord is appended. -/
def processChunkGo : List BamRead → Finset String → List UmiRecord
  | [], _ => []
  | r :: reads, umi_seen =>
    if r.mapq ≠ 255 then processChunkGo reads umi_seen
    else
      match r.cb, r.ub with
      | some cb, some ub =>
        if hash_umi cb ub ∈ umi_seen then processChunkGo reads umi_seen
        else
          if regionOf r ∈ (["E", "N", "I"] : List String) then
            ⟨cb, ub, regionOf r, hash_umi cb ub⟩ ::
              processChunkGo reads (insert (hash_umi cb ub) umi_seen)
          else processChunkGo reads (insert (hash_umi cb ub) umi_seen)
      | _, _ => processChunkGo reads umi_seen

/-- The local seen set left behind by the loop of process_chunk_streaming
(insertion is idempotent, so the already-seen branch is uniform). -/
def seenAfter : List BamRead → Finset String → Finset String
  | [], s => s
  | r :: reads, s =>
    if r.mapq ≠ 255 then seenAfter reads s
    else
      match r.cb, r.ub with
      | some cb, some ub => seenAfter reads (insert (hash_umi cb ub) s)
      | _, _ => seenAfter reads s

/-- Does bam.fetch on this chunk yield this read?  pysam yields the reads
overlapping the half-open range (spec section 6: range-scoped iteration
over records overlapping a given reference, start, end). -/
def scans (c : Chunk) (r : BamRead) : Bool :=
  c.ref == r.ref && decide (c.start < r.alnEnd) && decide (r.pos < c.stop)

/-- Models bam.fetch(reference, start, end) over a coordinate-sorted record
list: the records overlapping the range, in file order. -/
def fetch_reads (reads : List BamRead) (c : Chunk) : List BamRead :=
  reads.filter (fun r => scans c r)

/-- Embeds process_chunk_streaming for one chunk: fetch the overlapping
records and run the filtering/dedup loop with an empty local seen set. -/
def process_chunk_streaming (reads : List BamRead) (c : Chunk) : List UmiRecord :=
  processChunkGo (fetch_reads reads c) ∅

/-- Python range(start, stop, step) for a positive step, by structural
recursion on an explicit iteration bound so that the definition reduces
inside the kernel; the bound stop - start suffices because every step
advances start by at least one. -/
def rangeStepAux (step : Int) : Nat → Int → Int → List Int
  | 0, _, _ => []
  | fuel + 1, start, stop =>
    if 0 < step ∧ start < stop then start :: rangeStepAux step fuel (start + step) stop
    else []

/-- Python range(start, stop, step) for a positive step. -/
def rangeStep (start stop step : Int) : List Int :=
  rangeStepAux step (stop - start).toNat start stop

/-- The bins one reference contributes in get_bam_chunks:
for start in range(0, length, bin_size), end = min(start + bin_size, length). -/
def binsOf (ref : String) (length : Int) (bin_size : Int) : List Chunk :=
  (rangeStep 0 length bin_size).map (fun s => ⟨ref, s, min (s + bin_size) length⟩)

/-- Embeds get_bam_chunks: the per-reference bins, references in header order. -/
def get_bam_chunks (refs : List (String × Int)) (bin_size : Int) : List Chunk :=
  refs.flatMap (fun rl => binsOf rl.1 rl.2 bin_size)

/-- The increment cell_data[cb][region_type] += 1 performs on one counter
triple (the source indexes a dict whose keys are exactly E, N, I). -/
def bumpCounts (region_type : String) (c : Counts) : Counts :=
  if region_type = "E" then { c with E := c.E + 1 }
  else if region_type = "N" then { c with N := c.N + 1 }
  else if region_type = "I" then { c with I := c.I + 1 }
  else c

/-- cell_data[cb][region_type] += 1 on the insertion-ordered dict:
a first touch of cb appends a fresh zero triple at the end. -/
def updateCell : CellData → String → String → CellData
  | [], cb, region_type => [(cb, bumpCounts region_type ⟨0, 0, 0⟩)]
  | kc :: rest, cb, region_type =>
    if kc.1 = cb then (kc.1, bumpCounts region_type kc.2) :: rest
    else kc :: updateCell rest cb region_type

/-- The counter triple recorded for a cell (zero if the cell never appears). -/
def lookupCounts (cell_data : CellData) (cb : String) : Counts :=
  ((cell_data.find? (fun kc => kc.1 == cb)).map Prod.snd).getD ⟨0, 0, 0⟩

/-- The exonic+intronic+intergenic total of one counter triple. -/
def sumTriple (c : Counts) : Nat :=
  c.E + c.N + c.I

/-- Embeds the record loop of merge_chunk_results_streaming: global dedup
against global_umi_seen, then the per-cell increment. -/
def mergeGo : List UmiRecord → Finset String → CellData → CellData
  | [], _, cell_data => cell_data
  | e :: es, seen, cell_data =>
    if e.umi_hash ∈ seen then mergeGo es seen cell_data
    else mergeGo es (insert e.umi_hash seen) (updateCell cell_data e.cb e.region_type)

/-- The global seen set after merging a record list (insertion is idempotent). -/
def mergeSeen : List UmiRecord → Finset String → Finset String
  | [], s => s
  | e :: es, s => mergeSeen es (insert e.umi_hash s)

/-- Embeds merge_chunk_results_streaming: the chunk batches are consumed
in list order, one nested loop over all their records. -/
def merge_chunk_results_streaming (chunk_results : List (List UmiRecord)) : CellData :=
  mergeGo chunk_results.flatten ∅ []

/-- Folding the per-cell increment over an emitted record list. -/
def foldUpdates (cell_data : CellData) (es : List UmiRecord) : CellData :=
  es.foldl (fun cd e => updateCell cd e.cb e.region_type) cell_data

/-- One output row of write_output_csv; proportions are exact rationals. -/
structure ReportRow where
  cb_cell_barcode : String
  total_reads : Nat
  exon_reads : Nat
  exon_prop : ℚ
  intron_reads : Nat
  intron_prop : ℚ
  intergenic_reads : Nat
  intergenic_prop : ℚ
deriving DecidableEq, Repr

/-- Embeds write_output_csv: one row per cell in dict order, total as the
sum of the three counts, proportions count/total guarded by total > 0. -/
def write_output_csv (cell_data : CellData) : List ReportRow :=
  cell_data.map fun kc =>
    let exon_reads := kc.2.E
    let intron_reads := kc.2.N
    let intergenic_reads := kc.2.I
    let total_reads := exon_reads + intron_reads + intergenic_reads
    if 0 < total_reads then
      ⟨kc.1, total_reads, exon_reads, (exon_reads : ℚ) / (total_reads : ℚ),
        intron_reads, (intron_reads : ℚ) / (total_reads : ℚ),
        intergenic_reads, (intergenic_reads : ℚ) / (total_reads : ℚ)⟩
    else
      ⟨kc.1, total_reads, exon_reads, 0, intron_reads, 0, intergenic_reads, 0⟩

/-- Embeds main: chunks are produced by get_bam_chunks, dispatched to
pool.map (which returns the per-chunk results in input order whatever
num_threads is, so the thread count cannot influence the value), then
merged; num_threads is therefore a dead parameter of the model. -/
def run_pipeline (refs : List (String × Int)) (reads : List BamRead)
    (bin_size : Int) (num_threads : Nat) : CellData :=
  merge_chunk_results_streaming
    ((get_bam_chunks refs bin_size).map (process_chunk_streaming reads))

/-- One line of the output file: the header row or one data row. -/
inductive OutLine where
  | header : OutLine
  | row : ReportRow → OutLine
deriving DecidableEq, Repr

/-- The full line sequence write_output_csv emits for a final cell_data. -/
def csv_lines (cell_data : CellData) : List OutLine :=
  OutLine.header :: (write_output_csv cell_data).map OutLine.row

/-- Effect model of write_output_csv on the destination: open(output_csv, w)
replaces whatever was there with an empty file, then the lines are written
in order; fail_after = some k means the destination fails after k lines,
leaving the truncated prefix in place (the source has no temporary file,
rename, or cleanup).  Returns the destination state and the success flag. -/
def write_output_effect (cell_data : CellData) (fail_after : Option Nat)
    (_pre : Option (List OutLine)) : Option (List OutLine) × Bool :=
  match fail_after with
  | none => (some (csv_lines cell_data), true)
  | some k => (some ((csv_lines cell_data).take k), false)

/-- Effect model of main: a worker-level fatal error surfaces from pool.map
before the output path is ever opened, so the destination keeps its prior
state; otherwise write_output_csv runs with a possible mid-write failure. -/
def run_pipeline_effect (refs : List (String × Int)) (reads : List BamRead)
    (bin_size : Int) (num_threads : Nat) (worker_fails : Bool)
    (fail_after : Option Nat) (pre : Option (List OutLine)) :
    Option (List OutLine) × Bool :=
  if worker_fails then (pre, false)
  else write_output_effect (run_pipeline refs reads bin_size num_threads) fail_after pre

/-- Spec-side count, following the words of claim C1: the number of distinct
(cell_barcode, molecule_barcode) pairs observed anywhere in the input with
the given cell barcode, mapping confidence 255, both barcode attributes
present and non-empty, and a recognized region-type code. -/
def specC1PairCount (reads : List BamRead) (cell : String) : Nat :=
  ((reads.filter fun r =>
      r.mapq == 255 &&
      r.cb == some cell && !(cell == "") &&
      (match r.ub with | some u => !(u == "") | none => false) &&
      region_valid r).map
    (fun r => (r.cb.getD "", r.ub.getD ""))).dedup.length

/-- The chunks cover the half-open interval from lo to hi of one reference:
in order, contiguous, non-empty, non-overlapping. -/
def ChunkCover (ref : String) : Int → Int → List Chunk → Prop
  | lo, hi, [] => lo = hi
  | lo, hi, c :: cs => c.ref = ref ∧ c.start = lo ∧ lo < c.stop ∧ ChunkCover ref c.stop hi cs

/-- The chunk list is, reference by reference in header order, a cover of
that reference span (references of non-positive length get no chunks). -/
def PlanCover : List (String × Int) → List Chunk → Prop
  | [], chunks => chunks = []
  | rl :: refs, chunks =>
    ∃ cs rest, chunks = cs ++ rest ∧ ChunkCover rl.1 0 (max rl.2 0) cs ∧ PlanCover refs rest

/-- The record list is coordinate-sorted for the reference plan: a block per
reference in header order, positions weakly increasing inside a block, every
record within the reference span, with a positive-length alignment. -/
def PlanSorted : List (String × Int) → List BamRead → Prop
  | [], reads => reads = []
  | rl :: refs, reads =>
    ∃ X1 X2, reads = X1 ++ X2 ∧
      (∀ r ∈ X1, r.ref = rl.1 ∧ 0 ≤ r.pos ∧ r.pos < rl.2 ∧ r.pos < r.alnEnd) ∧
      List.Pairwise (fun a b => a.pos ≤ b.pos) X1 ∧
      (∀ r ∈ X2, r.ref ≠ rl.1) ∧
      PlanSorted refs X2

/-- Two cell_data dictionaries agree as maps from cell barcode to counters. -/
def cellDataEquiv (cd1 cd2 : CellData) : Prop :=
  ∀ cb, lookupCounts cd1 cb = lookupCounts cd2 cb

/-- Every record passing the confidence and tag-presence checks carries a
recognized region-type code. -/
def regionProviso (reads : List BamRead) : Prop :=
  ∀ r ∈ reads, tag_pass r = true → region_valid r = true

/-- Any two passing records with the same dedup key carry the same cell
barcode (rules out joined-string aliasing across distinct cells). -/
def cbCoherent (reads : List BamRead) : Prop :=
  ∀ r1 ∈ reads, ∀ r2 ∈ reads,
    tag_pass r1 = true → tag_pass r2 = true → keyOf r1 = keyOf r2 →
      r1.cb = r2.cb

/-- Any two candidate records with the same fingerprint agree on cell
barcode and region type. -/
def umiCoherent (es : List UmiRecord) : Prop :=
  ∀ e1 ∈ es, ∀ e2 ∈ es, e1.umi_hash = e2.umi_hash →
    e1.cb = e2.cb ∧ e1.region_type = e2.region_type

/-- The dedup keys of the passing records of a list. -/
def keysFinset (reads : List BamRead) : Finset String :=
  (reads.filterMap (fun r => if tag_pass r then some (keyOf r) else none)).toFinset

/-- The dedup keys of the passing records carrying the given cell barcode. -/
def keysWithCb (reads : List BamRead) (cell : String) : Finset String :=
  (reads.filterMap
    (fun r => if tag_pass r && r.cb == some cell then some (keyOf r) else none)).toFinset

/-- A confidently mapped record of cellA/umi1 whose region code X is not
recognized; it still consumes the dedup key of the pair in its bin. -/
def readBad : BamRead :=
  ⟨"chr1", 0, 1, 255, some "cellA", some "umi1", some "X"⟩

/-- A later confidently mapped exonic record of the same cellA/umi1 pair. -/
def readGood : BamRead :=
  ⟨"chr1", 12, 13, 255, some "cellA", some "umi1", some "E"⟩

/-- A two-record input exercising the dedup-before-region-check behaviour. -/
def demoInput : List BamRead :=
  [readBad, readGood]

/-- A single reference of length 20 for the concrete scenarios. -/
def demoRefs : List (String × Int) :=
  [("chr1", (20 : Int))]

/-- The default bin size of the source (10 Mb). -/
def BIN_SIZE : Int := 10000000

/-- A one-record candidate batch: cellA/umi1 seen as exonic in one bin. -/
def batchE : List UmiRecord :=
  [⟨"cellA", "umi1", "E", hash_umi "cellA" "umi1"⟩]

/-- A one-record candidate batch: the same cellA/umi1 key seen as intronic
in another bin (cross-bin duplicates of one molecule can disagree on the
region code). -/
def batchN : List UmiRecord :=
  [⟨"cellA", "umi1", "N", hash_umi "cellA" "umi1"⟩]

/-- The four synthetic records of the concrete scenario of claim C8. -/
def c8reads : List BamRead :=
  [⟨"chr1", 0, 1, 255, some "cellA", some "umi1", some "E"⟩,
   ⟨"chr1", 5, 6, 255, some "cellA", some "umi1", some "E"⟩,
   ⟨"chr1", 10, 11, 255, some "cellA", some "umi2", some "N"⟩,
   ⟨"chr1", 15, 16, 255, some "cellB", some "umi3", some "I"⟩]

/-- One reference of length 40 holding the four records of claim C8. -/
def c8refs : List (String × Int) :=
  [("chr1", (40 : Int))]

/-- A record whose pair (A:B, C) joins to the string A:B:C. -/
def readAlias1 : BamRead :=
  ⟨"chr1", 0, 1, 255, some "A:B", some "C", some "E"⟩

/-- A distinct pair (A, B:C) joining to the same string A:B:C. -/
def readAlias2 : BamRead :=
  ⟨"chr1", 3, 4, 255, some "A", some "B:C", some "N"⟩

/-- A record overlapping two adjacent 10-base bins: start 5, end 15. -/
def readSpan : BamRead :=
  ⟨"chr1", 5, 15, 255, some "cellA", some "umi1", some "E"⟩

/-- A well-behaved single record used to instantiate the amended theorems. -/
def wRead : BamRead :=
  ⟨"chr1", 0, 1, 255, some "cellA", some "umi1", some "E"⟩


/-- A one-record candidate batch with a key distinct from batchE. -/
def batchI : List UmiRecord :=
  [⟨"cellB", "umi3", "I", hash_umi "cellB" "umi3"⟩]

/-- A record filtered out by the mapping-quality check (MAPQ 10). -/
def readLowQ : BamRead :=
  ⟨"chr1", 0, 1, 10, some "cellA", some "umi1", some "E"⟩

theorem region_mem_iff (r : BamRead) :
    (regionOf r ∈ (["E", "N", "I"] : List String)) ↔ region_valid r = true := by
  simp [region_valid, or_assoc]

theorem tag_pass_destruct (r : BamRead) (h : tag_pass r = true) :
    ∃ cbv ubv, r.mapq = 255 ∧ r.cb = some cbv ∧ r.ub = some ubv := by
  simp only [tag_pass, Bool.and_eq_true, beq_iff_eq, Option.isSome_iff_exists] at h
  obtain ⟨⟨hm, cbv, hcb⟩, ubv, hub⟩ := h
  exact ⟨cbv, ubv, hm, hcb, hub⟩

theorem tag_pass_false_cases (r : BamRead) (h : tag_pass r = false) :
    r.mapq ≠ 255 ∨ r.cb = none ∨ r.ub = none := by
  by_cases hm : r.mapq = 255
  · rcases hcb : r.cb with _ | cbv
    · exact Or.inr (Or.inl rfl)
    · rcases hub : r.ub with _ | ubv
      · exact Or.inr (Or.inr rfl)
      · exfalso
        rw [tag_pass, hcb, hub] at h
        simp [hm] at h
  · exact Or.inl hm

theorem pg_cons_skip (r : BamRead) (reads : List BamRead) (S : Finset String)
    (h : tag_pass r = false) :
    processChunkGo (r :: reads) S = processChunkGo reads S := by
  obtain ⟨ref, pos, aend, mq, cb, ub, re⟩ := r
  rcases tag_pass_false_cases _ h with hm | hcb | hub
  · simp only at hm
    simp [processChunkGo, hm]
  · simp only at hcb
    subst hcb
    simp [processChunkGo]
  · simp only at hub
    subst hub
    simp [processChunkGo]

theorem sa_cons_skip (r : BamRead) (reads : List BamRead) (S : Finset String)
    (h : tag_pass r = false) :
    seenAfter (r :: reads) S = seenAfter reads S := by
  obtain ⟨ref, pos, aend, mq, cb, ub, re⟩ := r
  rcases tag_pass_false_cases _ h with hm | hcb | hub
  · simp only at hm
    simp [seenAfter, hm]
  · simp only at hcb
    subst hcb
    simp [seenAfter]
  · simp only at hub
    subst hub
    simp [seenAfter]

theorem pg_cons_seen (r : BamRead) (reads : List BamRead) (S : Finset String)
    (h : tag_pass r = true) (hs : keyOf r ∈ S) :
    processChunkGo (r :: reads) S = processChunkGo reads S := by
  obtain ⟨cbv, ubv, hm, hcb, hub⟩ := tag_pass_destruct r h
  obtain ⟨ref, pos, aend, mq, cb, ub, re⟩ := r
  simp only at hm hcb hub
  subst hm hcb hub
  simp only [keyOf, Option.getD_some] at hs
  simp [processChunkGo, hs]

theorem sa_cons_pass (r : BamRead) (reads : List BamRead) (S : Finset String)
    (h : tag_pass r = true) :
    seenAfter (r :: reads) S = seenAfter reads (insert (keyOf r) S) := by
  obtain ⟨cbv, ubv, hm, hcb, hub⟩ := tag_pass_destruct r h
  obtain ⟨ref, pos, aend, mq, cb, ub, re⟩ := r
  simp only at hm hcb hub
  subst hm hcb hub
  simp [seenAfter, keyOf]

theorem pg_cons_emit (r : BamRead) (reads : List BamRead) (S : Finset String)
    (h : tag_pass r = true) (hs : keyOf r ∉ S) (hv : region_valid r = true) :
    processChunkGo (r :: reads) S =
      ⟨r.cb.getD "", r.ub.getD "", regionOf r, keyOf r⟩ ::
        processChunkGo reads (insert (keyOf r) S) := by
  obtain ⟨cbv, ubv, hm, hcb, hub⟩ := tag_pass_destruct r h
  obtain ⟨ref, pos, aend, mq, cb, ub, re⟩ := r
  simp only at hm hcb hub
  subst hm hcb hub
  simp only [keyOf, Option.getD_some] at hs
  have hv2 := (region_mem_iff _).mpr hv
  simp [processChunkGo, hs, keyOf, hv2]

theorem pg_cons_noregion (r : BamRead) (reads : List BamRead) (S : Finset String)
    (h : tag_pass r = true) (hs : keyOf r ∉ S) (hv : region_valid r = false) :
    processChunkGo (r :: reads) S = processChunkGo reads (insert (keyOf r) S) := by
  obtain ⟨cbv, ubv, hm, hcb, hub⟩ := tag_pass_destruct r h
  obtain ⟨ref, pos, aend, mq, cb, ub, re⟩ := r
  simp only at hm hcb hub
  subst hm hcb hub
  simp only [keyOf, Option.getD_some] at hs
  have hv2 : ¬ (regionOf ⟨ref, pos, aend, 255, some cbv, some ubv, re⟩ ∈
      (["E", "N", "I"] : List String)) := by
    rw [region_mem_iff, hv]
    simp
  simp [processChunkGo, hs, keyOf, hv2]

theorem pg_append (A B : List BamRead) (S : Finset String) :
    processChunkGo (A ++ B) S = processChunkGo A S ++ processChunkGo B (seenAfter A S) := by
  induction A generalizing S with
  | nil => simp [processChunkGo, seenAfter]
  | cons r A ih =>
    rw [List.cons_append]
    by_cases hp : tag_pass r
    · by_cases hs : keyOf r ∈ S
      · rw [pg_cons_seen r _ S hp hs, pg_cons_seen r A S hp hs, ih,
          sa_cons_pass r A S hp, Finset.insert_eq_self.mpr hs]
      · by_cases hv : region_valid r
        · rw [pg_cons_emit r _ S hp hs hv, pg_cons_emit r A S hp hs hv, ih,
            sa_cons_pass r A S hp, List.cons_append]
        · rw [pg_cons_noregion r _ S hp hs (by simpa using hv),
            pg_cons_noregion r A S hp hs (by simpa using hv), ih, sa_cons_pass r A S hp]
    · rw [pg_cons_skip r _ S (by simpa using hp), pg_cons_skip r A S (by simpa using hp),
        ih, sa_cons_skip r A S (by simpa using hp)]

theorem keysFinset_mem (reads : List BamRead) (k : String) :
    k ∈ keysFinset reads ↔ ∃ r ∈ reads, tag_pass r = true ∧ keyOf r = k := by
  simp only [keysFinset, List.mem_toFinset, List.mem_filterMap]
  constructor
  · rintro ⟨r, hr, hf⟩
    by_cases hp : tag_pass r
    · rw [if_pos hp] at hf
      exact ⟨r, hr, hp, Option.some_injective _ hf⟩
    · rw [if_neg hp] at hf
      exact absurd hf (by simp)
  · rintro ⟨r, hr, hp, hk⟩
    exact ⟨r, hr, by rw [if_pos hp, hk]⟩

theorem keysFinset_cons_skip (r : BamRead) (reads : List BamRead)
    (h : tag_pass r = false) : keysFinset (r :: reads) = keysFinset reads := by
  simp [keysFinset, List.filterMap_cons, h]

theorem keysFinset_cons_pass (r : BamRead) (reads : List BamRead)
    (h : tag_pass r = true) :
    keysFinset (r :: reads) = insert (keyOf r) (keysFinset reads) := by
  simp [keysFinset, List.filterMap_cons, h]

theorem sa_eq_union (reads : List BamRead) (S : Finset String) :
    seenAfter reads S = S ∪ keysFinset reads := by
  induction reads generalizing S with
  | nil => simp [seenAfter, keysFinset]
  | cons r reads ih =>
    by_cases hp : tag_pass r
    · rw [sa_cons_pass r reads S hp, ih, keysFinset_cons_pass r reads hp,
        Finset.union_insert, Finset.insert_union]
    · rw [sa_cons_skip r reads S (by simpa using hp), ih,
        keysFinset_cons_skip r reads (by simpa using hp)]

theorem pg_hash_not_mem (A : List BamRead) (S : Finset String) :
    ∀ e ∈ processChunkGo A S, e.umi_hash ∉ S := by
  induction A generalizing S with
  | nil => simp [processChunkGo]
  | cons r A ih =>
    by_cases hp : tag_pass r
    · by_cases hs : keyOf r ∈ S
      · rw [pg_cons_seen r A S hp hs]
        exact ih S
      · by_cases hv : region_valid r
        · rw [pg_cons_emit r A S hp hs hv]
          intro e he
          rcases List.mem_cons.mp he with rfl | he2
          · exact hs
          · exact fun hmem => ih _ e he2 (Finset.mem_insert_of_mem hmem)
        · rw [pg_cons_noregion r A S hp hs (by simpa using hv)]
          exact fun e he hmem => ih _ e he (Finset.mem_insert_of_mem hmem)
    · rw [pg_cons_skip r A S (by simpa using hp)]
      exact ih S

theorem pg_hash_nodup (A : List BamRead) (S : Finset String) :
    ((processChunkGo A S).map (fun e => e.umi_hash)).Nodup := by
  induction A generalizing S with
  | nil => simp [processChunkGo]
  | cons r A ih =>
    by_cases hp : tag_pass r
    · by_cases hs : keyOf r ∈ S
      · rw [pg_cons_seen r A S hp hs]
        exact ih S
      · by_cases hv : region_valid r
        · rw [pg_cons_emit r A S hp hs hv]
          refine List.Nodup.cons ?_ (ih _)
          intro hmem
          simp only [List.mem_map] at hmem
          obtain ⟨e, he, hk⟩ := hmem
          exact pg_hash_not_mem A _ e he (by rw [hk]; exact Finset.mem_insert_self _ _)
        · rw [pg_cons_noregion r A S hp hs (by simpa using hv)]
          exact ih _
    · rw [pg_cons_skip r A S (by simpa using hp)]
      exact ih S

theorem union_insert_absorb (S T : Finset String) (k : String) (hk : k ∈ S) :
    S ∪ insert k T = S ∪ T := by
  ext x
  simp only [Finset.mem_union, Finset.mem_insert]
  constructor
  · rintro (hx | rfl | hx)
    · exact Or.inl hx
    · exact Or.inl hk
    · exact Or.inr hx
  · rintro (hx | hx)
    · exact Or.inl hx
    · exact Or.inr (Or.inr hx)

theorem pg_union_filter (A : List BamRead) (S T : Finset String) :
    processChunkGo A (S ∪ T) =
      (processChunkGo A T).filter (fun e => decide (e.umi_hash ∉ S)) := by
  induction A generalizing T with
  | nil => simp [processChunkGo]
  | cons r A ih =>
    by_cases hp : tag_pass r
    · by_cases hT : keyOf r ∈ T
      · rw [pg_cons_seen r A T hp hT,
          pg_cons_seen r A (S ∪ T) hp (Finset.mem_union_right S hT)]
        exact ih T
      · by_cases hS : keyOf r ∈ S
        · rw [pg_cons_seen r A (S ∪ T) hp (Finset.mem_union_left T hS)]
          by_cases hv : region_valid r
          · rw [pg_cons_emit r A T hp hT hv, List.filter_cons_of_neg (by simpa using hS),
              ← ih (insert (keyOf r) T), union_insert_absorb S T _ hS]
          · rw [pg_cons_noregion r A T hp hT (by simpa using hv),
              ← ih (insert (keyOf r) T), union_insert_absorb S T _ hS]
        · have hST : keyOf r ∉ S ∪ T := by
            simp [hS, hT]
          by_cases hv : region_valid r
          · rw [pg_cons_emit r A T hp hT hv, pg_cons_emit r A (S ∪ T) hp hST hv,
              List.filter_cons_of_pos (by simp [hS]), ← Finset.union_insert,
              ih (insert (keyOf r) T)]
          · rw [pg_cons_noregion r A T hp hT (by simpa using hv),
              pg_cons_noregion r A (S ∪ T) hp hST (by simpa using hv),
              ← Finset.union_insert, ih (insert (keyOf r) T)]
    · rw [pg_cons_skip r A T (by simpa using hp),
        pg_cons_skip r A (S ∪ T) (by simpa using hp)]
      exact ih T

theorem pg_eq_filter_empty (A : List BamRead) (S : Finset String) :
    processChunkGo A S =
      (processChunkGo A ∅).filter (fun e => decide (e.umi_hash ∉ S)) := by
  rw [← pg_union_filter A S ∅, Finset.union_empty]

theorem mg_append (A B : List UmiRecord) (S : Finset String) (cd : CellData) :
    mergeGo (A ++ B) S cd = mergeGo B (mergeSeen A S) (mergeGo A S cd) := by
  induction A generalizing S cd with
  | nil => simp [mergeGo, mergeSeen]
  | cons e A ih =>
    by_cases hs : e.umi_hash ∈ S
    · simp only [List.cons_append, mergeGo, mergeSeen, if_pos hs,
        Finset.insert_eq_self.mpr hs]
      exact ih S cd
    · simp only [List.cons_append, mergeGo, mergeSeen, if_neg hs]
      exact ih _ _

theorem mergeSeen_eq (B : List UmiRecord) (S : Finset String) :
    mergeSeen B S = S ∪ (B.map (fun e => e.umi_hash)).toFinset := by
  induction B generalizing S with
  | nil => simp [mergeSeen]
  | cons e B ih =>
    simp only [mergeSeen, ih, List.map_cons, List.toFinset_cons,
      Finset.union_insert, Finset.insert_union]

theorem mg_nodup_filter (B : List UmiRecord) (S : Finset String) (cd : CellData)
    (h : (B.map (fun e => e.umi_hash)).Nodup) :
    mergeGo B S cd =
      foldUpdates cd (B.filter (fun e => decide (e.umi_hash ∉ S))) := by
  induction B generalizing S cd with
  | nil => simp [mergeGo, foldUpdates]
  | cons e B ih =>
    simp only [List.map_cons, List.nodup_cons] at h
    have hfc : (e :: B).filter (fun x => decide (x.umi_hash ∉ S)) =
        if e.umi_hash ∈ S then B.filter (fun x => decide (x.umi_hash ∉ S))
        else e :: B.filter (fun x => decide (x.umi_hash ∉ S)) := by
      by_cases hs : e.umi_hash ∈ S
      · simp [List.filter_cons, hs]
      · simp [List.filter_cons, hs]
    rw [hfc]
    by_cases hs : e.umi_hash ∈ S
    · rw [if_pos hs]
      simp only [mergeGo, if_pos hs]
      exact ih S cd h.2
    · rw [if_neg hs]
      simp only [mergeGo, if_neg hs]
      rw [ih _ _ h.2]
      have hcong : B.filter (fun x => decide (x.umi_hash ∉ insert e.umi_hash S)) =
          B.filter (fun x => decide (x.umi_hash ∉ S)) := by
        apply List.filter_congr
        intro x hx
        have hne : x.umi_hash ≠ e.umi_hash := fun hEq =>
          h.1 (by rw [← hEq]; exact List.mem_map_of_mem _ hx)
        simp [Finset.mem_insert, hne, hs]
      rw [hcong]
      rfl

theorem pg_hashes_toFinset (A : List BamRead) (T : Finset String)
    (hreg : ∀ r ∈ A, tag_pass r = true → region_valid r = true) :
    ((processChunkGo A T).map (fun e => e.umi_hash)).toFinset = keysFinset A \ T := by
  induction A generalizing T with
  | nil => simp [processChunkGo, keysFinset]
  | cons r A ih =>
    have hreg2 : ∀ x ∈ A, tag_pass x = true → region_valid x = true :=
      fun x hx => hreg x (List.mem_cons_of_mem r hx)
    by_cases hp : tag_pass r
    · by_cases hT : keyOf r ∈ T
      · rw [pg_cons_seen r A T hp hT, ih T hreg2, keysFinset_cons_pass r A hp]
        ext x
        simp only [Finset.mem_sdiff, Finset.mem_insert]
        constructor
        · rintro ⟨hx, hxT⟩
          exact ⟨Or.inr hx, hxT⟩
        · rintro ⟨rfl | hx, hxT⟩
          · exact absurd hT hxT
          · exact ⟨hx, hxT⟩
      · rw [pg_cons_emit r A T hp hT (hreg r (List.mem_cons_self r A) hp),
          keysFinset_cons_pass r A hp]
        simp only [List.map_cons, List.toFinset_cons, ih _ hreg2]
        ext x
        simp only [Finset.mem_insert, Finset.mem_sdiff]
        constructor
        · rintro (rfl | ⟨hx, hxT⟩)
          · exact ⟨Or.inl rfl, hT⟩
          · refine ⟨Or.inr hx, fun hxT2 => hxT (Or.inr hxT2)⟩
        · rintro ⟨rfl | hx, hxT⟩
          · exact Or.inl rfl
          · by_cases hxk : x = keyOf r
            · exact Or.inl hxk
            · exact Or.inr ⟨hx, by simp [Finset.mem_insert, hxk, hxT]⟩
    · rw [pg_cons_skip r A T (by simpa using hp),
        keysFinset_cons_skip r A (by simpa using hp)]
      exact ih T hreg2

theorem foldUpdates_append (cd : CellData) (A B : List UmiRecord) :
    foldUpdates cd (A ++ B) = foldUpdates (foldUpdates cd A) B := by
  simp [foldUpdates, List.foldl_append]

theorem sa_append (A B : List BamRead) (S : Finset String) :
    seenAfter (A ++ B) S = seenAfter B (seenAfter A S) := by
  induction A generalizing S with
  | nil => simp [seenAfter]
  | cons r A ih =>
    by_cases hp : tag_pass r
    · rw [List.cons_append, sa_cons_pass r _ S hp, sa_cons_pass r A S hp, ih]
    · rw [List.cons_append, sa_cons_skip r _ S (by simpa using hp),
        sa_cons_skip r A S (by simpa using hp), ih]

theorem ms_append (A B : List UmiRecord) (S : Finset String) :
    mergeSeen (A ++ B) S = mergeSeen B (mergeSeen A S) := by
  induction A generalizing S with
  | nil => simp [mergeSeen]
  | cons e A ih =>
    simp only [List.cons_append, mergeSeen]
    exact ih _

theorem merge_batches_eq (css : List (List BamRead)) (S : Finset String) (cd : CellData)
    (hreg : ∀ r ∈ css.flatten, tag_pass r = true → region_valid r = true) :
    mergeGo ((css.map (fun A => processChunkGo A ∅)).flatten) S cd
        = foldUpdates cd (processChunkGo css.flatten S) ∧
      mergeSeen ((css.map (fun A => processChunkGo A ∅)).flatten) S =
        seenAfter css.flatten S := by
  induction css generalizing S cd with
  | nil => simp [mergeGo, mergeSeen, processChunkGo, seenAfter, foldUpdates]
  | cons A css ih =>
    have hregA : ∀ r ∈ A, tag_pass r = true → region_valid r = true := by
      intro r hr
      exact hreg r (by simp [hr])
    have hregC : ∀ r ∈ css.flatten, tag_pass r = true → region_valid r = true := by
      intro r hr
      exact hreg r (by simp [hr])
    have hbatch : mergeGo (processChunkGo A ∅) S cd =
        foldUpdates cd (processChunkGo A S) := by
      rw [mg_nodup_filter _ S cd (pg_hash_nodup A ∅), ← pg_eq_filter_empty]
    have hseen : mergeSeen (processChunkGo A ∅) S = seenAfter A S := by
      rw [mergeSeen_eq, pg_hashes_toFinset A ∅ hregA, Finset.sdiff_empty, sa_eq_union]
    have ih2 := ih (seenAfter A S) (foldUpdates cd (processChunkGo A S)) hregC
    simp only [List.map_cons, List.flatten_cons]
    rw [mg_append, ms_append, hbatch, hseen, ih2.1, ih2.2]
    constructor
    · rw [pg_append, foldUpdates_append]
    · rw [sa_append]

theorem chunkCover_le (ref : String) :
    ∀ (cs : List Chunk) (lo hi : Int), ChunkCover ref lo hi cs → lo ≤ hi := by
  intro cs
  induction cs with
  | nil =>
    intro lo hi h
    simp only [ChunkCover] at h
    omega
  | cons c cs ih =>
    intro lo hi h
    simp only [ChunkCover] at h
    have := ih c.stop hi h.2.2.2
    omega

theorem chunkCover_props (ref : String) :
    ∀ (cs : List Chunk) (lo hi : Int), ChunkCover ref lo hi cs →
      ∀ c ∈ cs, c.ref = ref ∧ lo ≤ c.start ∧ c.start < c.stop ∧ c.stop ≤ hi := by
  intro cs
  induction cs with
  | nil =>
    intro lo hi _ c hc
    exact absurd hc (List.not_mem_nil c)
  | cons c0 cs ih =>
    intro lo hi h c hc
    simp only [ChunkCover] at h
    obtain ⟨href, hstart, hlt, hrest⟩ := h
    rcases List.mem_cons.mp hc with rfl | hc2
    · exact ⟨href, le_of_eq hstart.symm, hstart ▸ hlt, chunkCover_le ref cs c.stop hi hrest⟩
    · obtain ⟨h1, h2, h3, h4⟩ := ih c0.stop hi hrest c hc2
      exact ⟨h1, by omega, h3, h4⟩

theorem chunkCover_scan_exists (ref : String) :
    ∀ (cs : List Chunk) (lo hi : Int) (r : BamRead), ChunkCover ref lo hi cs →
      r.ref = ref → lo ≤ r.pos → r.pos < hi → r.pos < r.alnEnd →
      ∃ c ∈ cs, (c.start ≤ r.pos ∧ r.pos < c.stop) ∧ scans c r = true := by
  intro cs
  induction cs with
  | nil =>
    intro lo hi r h href hlo hhi _
    simp only [ChunkCover] at h
    omega
  | cons c cs ih =>
    intro lo hi r h href hlo hhi haln
    simp only [ChunkCover] at h
    obtain ⟨hcref, hstart, hlt, hrest⟩ := h
    by_cases hin : r.pos < c.stop
    · refine ⟨c, List.mem_cons_self c cs, ⟨by omega, hin⟩, ?_⟩
      simp [scans, hcref, href, hin]
      omega
    · obtain ⟨c2, hc2, hcontain, hscan⟩ :=
        ih c.stop hi r hrest href (by omega) hhi haln
      exact ⟨c2, List.mem_cons_of_mem c hc2, hcontain, hscan⟩

theorem sorted_split (X : List BamRead) (e : Int)
    (hsort : List.Pairwise (fun a b => a.pos ≤ b.pos) X) :
    ∃ X1 X2, X = X1 ++ X2 ∧
      (∀ r ∈ X1, r.pos < e) ∧ (∀ r ∈ X2, e ≤ r.pos) ∧
      List.Pairwise (fun a b => a.pos ≤ b.pos) X1 ∧
      List.Pairwise (fun a b => a.pos ≤ b.pos) X2 := by
  induction X with
  | nil => exact ⟨[], [], rfl, by simp, by simp, by simp, by simp⟩
  | cons r X ih =>
    obtain ⟨hhead, htail⟩ := List.pairwise_cons.mp hsort
    obtain ⟨X1, X2, hX, h1, h2, hp1, hp2⟩ := ih htail
    by_cases hr : r.pos < e
    · refine ⟨r :: X1, X2, by rw [hX, List.cons_append], ?_, h2, ?_, hp2⟩
      · intro x hx
        rcases List.mem_cons.mp hx with rfl | hx2
        · exact hr
        · exact h1 x hx2
      · refine List.pairwise_cons.mpr ⟨?_, hp1⟩
        intro x hx
        exact hhead x (by rw [hX]; exact List.mem_append_left X2 hx)
    · refine ⟨[], r :: X, by simp, by simp, ?_, by simp, hsort⟩
      intro x hx
      rcases List.mem_cons.mp hx with rfl | hx2
      · omega
      · have := hhead x hx2
        omega

theorem fetch_append (X1 X2 : List BamRead) (c : Chunk) :
    fetch_reads (X1 ++ X2) c = fetch_reads X1 c ++ fetch_reads X2 c := by
  simp [fetch_reads, List.filter_append]

theorem fetch_mem (X : List BamRead) (c : Chunk) (r : BamRead) :
    r ∈ fetch_reads X c ↔ r ∈ X ∧ scans c r = true := by
  simp [fetch_reads, List.mem_filter]

theorem fetch_eq_nil (X : List BamRead) (c : Chunk)
    (h : ∀ r ∈ X, scans c r = false) : fetch_reads X c = [] := by
  rw [fetch_reads, List.filter_eq_nil_iff]
  intro r hr
  simp [h r hr]

theorem pg_all_seen (A : List BamRead) (S : Finset String)
    (h : ∀ r ∈ A, tag_pass r = true → keyOf r ∈ S) :
    processChunkGo A S = [] ∧ seenAfter A S = S := by
  induction A with
  | nil => exact ⟨rfl, rfl⟩
  | cons r A ih =>
    have htail : ∀ x ∈ A, tag_pass x = true → keyOf x ∈ S :=
      fun x hx => h x (List.mem_cons_of_mem r hx)
    by_cases hp : tag_pass r
    · have hk := h r (List.mem_cons_self r A) hp
      rw [pg_cons_seen r A S hp hk, sa_cons_pass r A S hp,
        Finset.insert_eq_self.mpr hk]
      exact ih htail
    · rw [pg_cons_skip r A S (by simpa using hp),
        sa_cons_skip r A S (by simpa using hp)]
      exact ih htail

theorem keysFinset_subset_of_subset (A B : List BamRead) (h : ∀ r ∈ A, r ∈ B) :
    keysFinset A ⊆ keysFinset B := by
  intro k hk
  obtain ⟨r, hr, hp, hkey⟩ := (keysFinset_mem A k).mp hk
  exact (keysFinset_mem B k).mpr ⟨r, h r hr, hp, hkey⟩

theorem keysFinset_eq_of_mem_iff (A B : List BamRead) (h : ∀ r, r ∈ A ↔ r ∈ B) :
    keysFinset A = keysFinset B :=
  le_antisymm (keysFinset_subset_of_subset A B fun r hr => (h r).mp hr)
    (keysFinset_subset_of_subset B A fun r hr => (h r).mpr hr)

theorem sa_supset (A : List BamRead) (S : Finset String) : S ⊆ seenAfter A S := by
  rw [sa_eq_union]
  exact Finset.subset_union_left

theorem pg_flatten_killed (X1 X2 : List BamRead) :
    ∀ (cs : List Chunk) (S : Finset String), keysFinset X1 ⊆ S →
      processChunkGo ((cs.map (fun c => fetch_reads X1 c ++ fetch_reads X2 c)).flatten) S =
        processChunkGo ((cs.map (fetch_reads X2)).flatten) S := by
  intro cs
  induction cs with
  | nil =>
    intro S _
    rfl
  | cons c cs ih =>
    intro S hsub
    have hkill : ∀ r ∈ fetch_reads X1 c, tag_pass r = true → keyOf r ∈ S := by
      intro r hr hp
      have hrX1 : r ∈ X1 := ((fetch_mem X1 c r).mp hr).1
      exact hsub ((keysFinset_mem X1 (keyOf r)).mpr ⟨r, hrX1, hp, rfl⟩)
    obtain ⟨hnil, hsa⟩ := pg_all_seen (fetch_reads X1 c) S hkill
    simp only [List.map_cons, List.flatten_cons, List.append_assoc]
    rw [pg_append, hnil, hsa, List.nil_append, pg_append, pg_append]
    congr 1
    exact ih (seenAfter (fetch_reads X2 c) S)
      (hsub.trans (sa_supset (fetch_reads X2 c) S))

theorem pg_cover_eq (ref : String) (hi : Int) :
    ∀ (cs : List Chunk) (lo : Int) (X : List BamRead),
      ChunkCover ref lo hi cs →
      List.Pairwise (fun a b => a.pos ≤ b.pos) X →
      (∀ r ∈ X, r.ref = ref ∧ lo ≤ r.pos ∧ r.pos < hi ∧ r.pos < r.alnEnd) →
      ∀ S, processChunkGo ((cs.map (fetch_reads X)).flatten) S = processChunkGo X S := by
  intro cs
  induction cs with
  | nil =>
    intro lo X hcov hsort hb S
    simp only [ChunkCover] at hcov
    have hX : X = [] := by
      cases X with
      | nil => rfl
      | cons r X =>
        obtain ⟨_, hb2, hb3, _⟩ := hb r (List.mem_cons_self r X)
        omega
    subst hX
    rfl
  | cons c cs ih =>
    intro lo X hcov hsort hb S
    simp only [ChunkCover] at hcov
    obtain ⟨hcref, hcstart, hclt, hrest⟩ := hcov
    obtain ⟨X1, X2, hX, h1, h2, hp1, hp2⟩ := sorted_split X c.stop hsort
    subst hX
    have hbX1 : ∀ r ∈ X1, r.ref = ref ∧ lo ≤ r.pos ∧ r.pos < hi ∧ r.pos < r.alnEnd :=
      fun r hr => hb r (List.mem_append_left X2 hr)
    have hbX2 : ∀ r ∈ X2, r.ref = ref ∧ c.stop ≤ r.pos ∧ r.pos < hi ∧ r.pos < r.alnEnd := by
      intro r hr
      obtain ⟨ha, hb2, hc2, hd⟩ := hb r (List.mem_append_right X1 hr)
      exact ⟨ha, h2 r hr, hc2, hd⟩
    have hf1 : fetch_reads X1 c = X1 := by
      rw [fetch_reads, List.filter_eq_self]
      intro r hr
      obtain ⟨ha, hb2, _, hd⟩ := hbX1 r hr
      have hlt : c.start < r.alnEnd := by omega
      simp [scans, hcref, ha, h1 r hr, hlt]
    have hf2 : fetch_reads X2 c = [] := by
      apply fetch_eq_nil
      intro r hr
      have h3 : ¬ (r.pos < c.stop) := by
        have := h2 r hr
        omega
      simp [scans, h3]
    have hmap : cs.map (fetch_reads (X1 ++ X2)) =
        cs.map (fun c2 => fetch_reads X1 c2 ++ fetch_reads X2 c2) :=
      List.map_congr_left fun c2 _ => fetch_append X1 X2 c2
    have hsub : keysFinset X1 ⊆ seenAfter X1 S := by
      rw [sa_eq_union]
      exact Finset.subset_union_right
    simp only [List.map_cons, List.flatten_cons, fetch_append, hf1, hf2,
      List.append_nil, hmap]
    rw [pg_append, pg_flatten_killed X1 X2 cs (seenAfter X1 S) hsub,
      ih c.stop X2 hrest hp2 hbX2 (seenAfter X1 S), pg_append]

theorem planCover_chunk_ref :
    ∀ (refs : List (String × Int)) (chunks : List Chunk), PlanCover refs chunks →
      ∀ c ∈ chunks, c.ref ∈ refs.map Prod.fst := by
  intro refs
  induction refs with
  | nil =>
    intro chunks h c hc
    simp only [PlanCover] at h
    subst h
    exact absurd hc (List.not_mem_nil c)
  | cons rl refs ih =>
    intro chunks h c hc
    simp only [PlanCover] at h
    obtain ⟨cs, rest, rfl, hcover, hrest⟩ := h
    rcases List.mem_append.mp hc with hc1 | hc2
    · simp only [List.map_cons, List.mem_cons]
      exact Or.inl (chunkCover_props rl.1 cs 0 (max rl.2 0) hcover c hc1).1
    · simp only [List.map_cons, List.mem_cons]
      exact Or.inr (ih rest hrest c hc2)

theorem pg_plan_eq :
    ∀ (refs : List (String × Int)) (chunks : List Chunk) (X : List BamRead),
      (refs.map Prod.fst).Nodup → PlanCover refs chunks → PlanSorted refs X →
      ∀ S, processChunkGo ((chunks.map (fetch_reads X)).flatten) S = processChunkGo X S := by
  intro refs
  induction refs with
  | nil =>
    intro chunks X hnd hcov hsort S
    simp only [PlanCover] at hcov
    simp only [PlanSorted] at hsort
    subst hcov hsort
    rfl
  | cons rl refs ih =>
    intro chunks X hnd hcov hsort S
    simp only [PlanCover] at hcov
    simp only [PlanSorted] at hsort
    obtain ⟨cs, rest, hchunks, hcover, hrest⟩ := hcov
    obtain ⟨X1, X2, hX, hbX1, hsortX1, hneX2, hps⟩ := hsort
    subst hchunks hX
    simp only [List.map_cons, List.nodup_cons] at hnd
    obtain ⟨hnd1, hnd2⟩ := hnd
    have hcs_ref : ∀ c ∈ cs, c.ref = rl.1 := fun c hc =>
      (chunkCover_props rl.1 cs 0 (max rl.2 0) hcover c hc).1
    have hrest_ref : ∀ c ∈ rest, c.ref ≠ rl.1 := by
      intro c hc heq
      exact hnd1 (heq ▸ planCover_chunk_ref refs rest hrest c hc)
    have hmap1 : cs.map (fetch_reads (X1 ++ X2)) = cs.map (fetch_reads X1) := by
      apply List.map_congr_left
      intro c hc
      rw [fetch_append]
      have h2 : fetch_reads X2 c = [] := by
        apply fetch_eq_nil
        intro r hr
        have hne : (c.ref == r.ref) = false :=
          beq_eq_false_iff_ne.mpr (fun h => hneX2 r hr (h.symm.trans (hcs_ref c hc)))
        simp [scans, hne]
      rw [h2, List.append_nil]
    have hmap2 : rest.map (fetch_reads (X1 ++ X2)) = rest.map (fetch_reads X2) := by
      apply List.map_congr_left
      intro c hc
      rw [fetch_append]
      have h1 : fetch_reads X1 c = [] := by
        apply fetch_eq_nil
        intro r hr
        have hne : (c.ref == r.ref) = false :=
          beq_eq_false_iff_ne.mpr (fun h => hrest_ref c hc (h.trans (hbX1 r hr).1))
        simp [scans, hne]
      rw [h1, List.nil_append]
    have hbX1' : ∀ r ∈ X1,
        r.ref = rl.1 ∧ 0 ≤ r.pos ∧ r.pos < max rl.2 0 ∧ r.pos < r.alnEnd := by
      intro r hr
      obtain ⟨ha, hb2, hc2, hd⟩ := hbX1 r hr
      exact ⟨ha, hb2, by omega, hd⟩
    have hkeys : keysFinset ((cs.map (fetch_reads X1)).flatten) = keysFinset X1 := by
      apply keysFinset_eq_of_mem_iff
      intro r
      constructor
      · intro hr
        simp only [List.mem_flatten, List.mem_map] at hr
        obtain ⟨l, ⟨c, hc, rfl⟩, hrl⟩ := hr
        exact ((fetch_mem X1 c r).mp hrl).1
      · intro hr
        obtain ⟨ha, hb2, hc2, hd⟩ := hbX1' r hr
        obtain ⟨c, hc, _, hscan⟩ :=
          chunkCover_scan_exists rl.1 cs 0 (max rl.2 0) r hcover ha hb2 hc2 hd
        simp only [List.mem_flatten, List.mem_map]
        exact ⟨fetch_reads X1 c, ⟨c, hc, rfl⟩, (fetch_mem X1 c r).mpr ⟨hr, hscan⟩⟩
    have hsa : seenAfter ((cs.map (fetch_reads X1)).flatten) S = seenAfter X1 S := by
      rw [sa_eq_union, sa_eq_union, hkeys]
    rw [List.map_append, hmap1, hmap2, List.flatten_append, pg_append,
      pg_cover_eq rl.1 (max rl.2 0) cs 0 X1 hcover hsortX1 hbX1' S, hsa,
      ih rest X2 hnd2 hrest hps (seenAfter X1 S), pg_append]

theorem pipeline_canonical (refs : List (String × Int)) (chunks : List Chunk)
    (X : List BamRead)
    (hnd : (refs.map Prod.fst).Nodup) (hcov : PlanCover refs chunks)
    (hsort : PlanSorted refs X)
    (hreg : ∀ r ∈ X, tag_pass r = true → region_valid r = true) :
    merge_chunk_results_streaming (chunks.map (process_chunk_streaming X)) =
      foldUpdates [] (processChunkGo X ∅) := by
  have hcss : chunks.map (process_chunk_streaming X) =
      (chunks.map (fetch_reads X)).map (fun A => processChunkGo A ∅) := by
    rw [List.map_map]
    rfl
  have hregJ : ∀ r ∈ ((chunks.map (fetch_reads X)).flatten),
      tag_pass r = true → region_valid r = true := by
    intro r hr
    simp only [List.mem_flatten, List.mem_map] at hr
    obtain ⟨l, ⟨c, hc, rfl⟩, hrl⟩ := hr
    exact hreg r ((fetch_mem X c r).mp hrl).1
  rw [hcss, merge_chunk_results_streaming,
    (merge_batches_eq (chunks.map (fetch_reads X)) ∅ [] hregJ).1,
    pg_plan_eq refs chunks X hnd hcov hsort ∅]

theorem lookup_cons_hit (kc : String × Counts) (L : CellData) (cb : String)
    (h : kc.1 = cb) : lookupCounts (kc :: L) cb = kc.2 := by
  simp [lookupCounts, List.find?, h]

theorem lookup_cons_miss (kc : String × Counts) (L : CellData) (cb : String)
    (h : kc.1 ≠ cb) : lookupCounts (kc :: L) cb = lookupCounts L cb := by
  have hb : (kc.1 == cb) = false := beq_eq_false_iff_ne.mpr h
  simp [lookupCounts, List.find?, hb]

theorem lookup_update (cd : CellData) (cb rt cb2 : String) :
    lookupCounts (updateCell cd cb rt) cb2 =
      if cb2 = cb then bumpCounts rt (lookupCounts cd cb)
      else lookupCounts cd cb2 := by
  induction cd with
  | nil =>
    by_cases h : cb2 = cb
    · subst h
      rw [if_pos rfl]
      exact lookup_cons_hit (cb2, bumpCounts rt ⟨0, 0, 0⟩) [] cb2 rfl
    · rw [if_neg h]
      have hu : updateCell [] cb rt = [(cb, bumpCounts rt ⟨0, 0, 0⟩)] := rfl
      rw [hu, lookup_cons_miss (cb, bumpCounts rt ⟨0, 0, 0⟩) [] cb2 (fun hh => h hh.symm)]
  | cons kc rest ih =>
    by_cases hhead : kc.1 = cb
    · simp only [updateCell, if_pos hhead]
      by_cases h : cb2 = cb
      · rw [if_pos h,
          lookup_cons_hit (kc.1, bumpCounts rt kc.2) rest cb2 (hhead.trans h.symm),
          lookup_cons_hit kc rest cb hhead]
      · rw [if_neg h,
          lookup_cons_miss (kc.1, bumpCounts rt kc.2) rest cb2
            (by rw [hhead]; exact fun hh => h hh.symm),
          lookup_cons_miss kc rest cb2 (by rw [hhead]; exact fun hh => h hh.symm)]
    · simp only [updateCell, if_neg hhead]
      by_cases h : cb2 = kc.1
      · have hne2 : ¬ (cb2 = cb) := by
          rw [h]
          exact fun hh => hhead hh
        rw [if_neg hne2, lookup_cons_hit kc (updateCell rest cb rt) cb2 h.symm,
          lookup_cons_hit kc rest cb2 h.symm]
      · rw [lookup_cons_miss kc (updateCell rest cb rt) cb2 (fun hh => h hh.symm), ih,
          lookup_cons_miss kc rest cb2 (fun hh => h hh.symm)]
        by_cases h2 : cb2 = cb
        · rw [if_pos h2, if_pos h2, lookup_cons_miss kc rest cb hhead]
        · rw [if_neg h2, if_neg h2]

theorem sumTriple_bump (rt : String) (c : Counts)
    (h : rt = "E" ∨ rt = "N" ∨ rt = "I") :
    sumTriple (bumpCounts rt c) = sumTriple c + 1 := by
  rcases h with rfl | rfl | rfl <;> simp [bumpCounts, sumTriple] <;> omega

theorem pg_region_valid_mem (A : List BamRead) (S : Finset String) :
    ∀ e ∈ processChunkGo A S,
      e.region_type = "E" ∨ e.region_type = "N" ∨ e.region_type = "I" := by
  induction A generalizing S with
  | nil => simp [processChunkGo]
  | cons r A ih =>
    by_cases hp : tag_pass r
    · by_cases hs : keyOf r ∈ S
      · rw [pg_cons_seen r A S hp hs]
        exact ih S
      · by_cases hv : region_valid r
        · rw [pg_cons_emit r A S hp hs hv]
          intro e he
          rcases List.mem_cons.mp he with rfl | he2
          · simpa [region_valid, or_assoc] using hv
          · exact ih _ e he2
        · rw [pg_cons_noregion r A S hp hs (by simpa using hv)]
          exact ih _
    · rw [pg_cons_skip r A S (by simpa using hp)]
      exact ih S

theorem sum_foldUpdates (es : List UmiRecord) :
    ∀ (cd : CellData) (cb : String),
      (∀ e ∈ es, e.region_type = "E" ∨ e.region_type = "N" ∨ e.region_type = "I") →
      sumTriple (lookupCounts (foldUpdates cd es) cb) =
        sumTriple (lookupCounts cd cb) + es.countP (fun e => e.cb == cb) := by
  induction es with
  | nil =>
    intro cd cb _
    rw [List.countP_nil]
    rfl
  | cons e es ih =>
    intro cd cb hreg
    have hself := hreg e (List.mem_cons_self e es)
    have htail : ∀ x ∈ es,
        x.region_type = "E" ∨ x.region_type = "N" ∨ x.region_type = "I" :=
      fun x hx => hreg x (List.mem_cons_of_mem e hx)
    have hstep : foldUpdates cd (e :: es) =
        foldUpdates (updateCell cd e.cb e.region_type) es := rfl
    rw [hstep, ih (updateCell cd e.cb e.region_type) cb htail, lookup_update,
      List.countP_cons]
    rcases eq_or_ne cb e.cb with h | h
    · rw [if_pos h, sumTriple_bump _ _ hself, h]
      have hb : (e.cb == e.cb) = true := beq_self_eq_true e.cb
      rw [hb, if_pos rfl]
      omega
    · rw [if_neg h]
      have hb : (e.cb == cb) = false := beq_eq_false_iff_ne.mpr fun hh => h hh.symm
      rw [hb, if_neg Bool.false_ne_true]
      omega

theorem keysWithCb_mem (X : List BamRead) (cell k : String) :
    k ∈ keysWithCb X cell ↔
      ∃ r ∈ X, tag_pass r = true ∧ r.cb = some cell ∧ keyOf r = k := by
  simp only [keysWithCb, List.mem_toFinset, List.mem_filterMap]
  constructor
  · rintro ⟨r, hr, hf⟩
    by_cases hp : (tag_pass r && r.cb == some cell) = true
    · rw [if_pos hp] at hf
      simp only [Bool.and_eq_true, beq_iff_eq] at hp
      exact ⟨r, hr, hp.1, hp.2, Option.some_injective _ hf⟩
    · rw [if_neg hp] at hf
      exact absurd hf (by simp)
  · rintro ⟨r, hr, hp, hcb, hk⟩
    refine ⟨r, hr, ?_⟩
    rw [if_pos (by simp [hp, hcb]), hk]

theorem keysWithCb_cons_pass (r : BamRead) (X : List BamRead) (cell : String)
    (hp : tag_pass r = true) (hcb : r.cb = some cell) :
    keysWithCb (r :: X) cell = insert (keyOf r) (keysWithCb X cell) := by
  simp [keysWithCb, List.filterMap_cons, hp, hcb]

theorem keysWithCb_cons_skip (r : BamRead) (X : List BamRead) (cell : String)
    (h : (tag_pass r && r.cb == some cell) = false) :
    keysWithCb (r :: X) cell = keysWithCb X cell := by
  have hn : ¬ (tag_pass r = true ∧ r.cb = some cell) := by
    rintro ⟨h1, h2⟩
    simp [h1, h2] at h
  simp [keysWithCb, List.filterMap_cons, hn]

theorem insert_sdiff_mem (K S : Finset String) (k : String) (hk : k ∈ S) :
    (insert k K) \ S = K \ S := by
  ext x
  simp only [Finset.mem_sdiff, Finset.mem_insert]
  constructor
  · rintro ⟨rfl | hx, hxS⟩
    · exact absurd hk hxS
    · exact ⟨hx, hxS⟩
  · rintro ⟨hx, hxS⟩
    exact ⟨Or.inr hx, hxS⟩

theorem sdiff_insert_eq_erase (K S : Finset String) (k : String) :
    K \ insert k S = (K \ S).erase k := by
  ext x
  simp only [Finset.mem_sdiff, Finset.mem_insert, Finset.mem_erase]
  tauto

theorem card_insert_eq_erase_add_one (K : Finset String) (k : String) :
    (insert k K).card = (K.erase k).card + 1 := by
  by_cases h : k ∈ K
  · rw [Finset.insert_eq_self.mpr h, ← Finset.card_erase_add_one h]
  · rw [Finset.erase_eq_of_not_mem h, Finset.card_insert_of_not_mem h]

theorem pg_countP_cb (cell : String) :
    ∀ (X : List BamRead) (S : Finset String),
      (∀ r ∈ X, tag_pass r = true → region_valid r = true) →
      (∀ r1 ∈ X, ∀ r2 ∈ X, tag_pass r1 = true → tag_pass r2 = true →
        keyOf r1 = keyOf r2 → r1.cb = r2.cb) →
      (processChunkGo X S).countP (fun e => e.cb == cell) =
        ((keysWithCb X cell) \ S).card := by
  intro X
  induction X with
  | nil =>
    intro S _ _
    simp [processChunkGo, keysWithCb]
  | cons r X ih =>
    intro S hreg hcoh
    have hregT : ∀ x ∈ X, tag_pass x = true → region_valid x = true :=
      fun x hx => hreg x (List.mem_cons_of_mem r hx)
    have hcohT : ∀ r1 ∈ X, ∀ r2 ∈ X, tag_pass r1 = true → tag_pass r2 = true →
        keyOf r1 = keyOf r2 → r1.cb = r2.cb :=
      fun r1 h1 r2 h2 =>
        hcoh r1 (List.mem_cons_of_mem r h1) r2 (List.mem_cons_of_mem r h2)
    by_cases hp : tag_pass r
    · by_cases hs : keyOf r ∈ S
      · rw [pg_cons_seen r X S hp hs, ih S hregT hcohT]
        by_cases hcb : r.cb = some cell
        · rw [keysWithCb_cons_pass r X cell hp hcb, insert_sdiff_mem _ _ _ hs]
        · rw [keysWithCb_cons_skip r X cell (by simp [hcb])]
      · rw [pg_cons_emit r X S hp hs (hreg r (List.mem_cons_self r X) hp),
          List.countP_cons, ih (insert (keyOf r) S) hregT hcohT]
        by_cases hcb : r.cb = some cell
        · have hbeq : ((⟨r.cb.getD "", r.ub.getD "", regionOf r, keyOf r⟩ :
              UmiRecord).cb == cell) = true := by
            simp [hcb]
          rw [hbeq, if_pos rfl, keysWithCb_cons_pass r X cell hp hcb,
            Finset.insert_sdiff_of_not_mem _ hs, sdiff_insert_eq_erase,
            card_insert_eq_erase_add_one]
        · have hbeq : ((⟨r.cb.getD "", r.ub.getD "", regionOf r, keyOf r⟩ :
              UmiRecord).cb == cell) = false := by
            obtain ⟨cbv, ubv, hm, hcbv, hub⟩ := tag_pass_destruct r hp
            simp only [hcbv, Option.getD_some]
            refine beq_eq_false_iff_ne.mpr fun hh => hcb ?_
            rw [hcbv, hh]
          have hknot : keyOf r ∉ keysWithCb X cell \ S := by
            intro hmem
            obtain ⟨hk, _⟩ := Finset.mem_sdiff.mp hmem
            obtain ⟨r2, hr2, hp2, hcb2, hk2⟩ := (keysWithCb_mem X cell _).mp hk
            exact hcb (by
              rw [hcoh r (List.mem_cons_self r X) r2 (List.mem_cons_of_mem r hr2)
                hp hp2 hk2.symm, hcb2])
          rw [hbeq, if_neg Bool.false_ne_true,
            keysWithCb_cons_skip r X cell (by simp [hcb]),
            sdiff_insert_eq_erase, Finset.erase_eq_of_not_mem hknot]
          omega
    · rw [pg_cons_skip r X S (by simpa using hp),
        keysWithCb_cons_skip r X cell
          (by simp [(by simpa using hp : tag_pass r = false)])]
      exact ih S hregT hcohT

theorem rangeStepAux_irrel (step : Int) :
    ∀ (f1 : Nat), ∀ (f2 : Nat) (start stop : Int),
      (stop - start).toNat ≤ f1 → (stop - start).toNat ≤ f2 →
      rangeStepAux step f1 start stop = rangeStepAux step f2 start stop := by
  intro f1
  induction f1 with
  | zero =>
    intro f2 start stop h1 h2
    cases f2 with
    | zero => rfl
    | succ f2 =>
      simp only [rangeStepAux]
      rw [if_neg (by omega)]
  | succ f1 ih =>
    intro f2 start stop h1 h2
    cases f2 with
    | zero =>
      simp only [rangeStepAux]
      rw [if_neg (by omega)]
    | succ f2 =>
      simp only [rangeStepAux]
      by_cases hc : 0 < step ∧ start < stop
      · rw [if_pos hc, if_pos hc, ih f2 (start + step) stop (by omega) (by omega)]
      · rw [if_neg hc, if_neg hc]

theorem rangeStep_unfold (start stop step : Int) :
    rangeStep start stop step =
      if 0 < step ∧ start < stop then start :: rangeStep (start + step) stop step
      else [] := by
  by_cases h : 0 < step ∧ start < stop
  · rw [if_pos h, rangeStep, rangeStep]
    rcases hn : (stop - start).toNat with _ | n
    · omega
    · simp only [rangeStepAux, if_pos h]
      rw [rangeStepAux_irrel step n ((stop - (start + step)).toNat) (start + step) stop
        (by omega) (by omega)]
  · rw [if_neg h, rangeStep]
    rcases hn : (stop - start).toNat with _ | n
    · rfl
    · simp only [rangeStepAux]
      rw [if_neg h]

theorem chunkCover_rangeStep (ref : String) (L B : Int) (hB : 0 < B) :
    ∀ (n : Nat) (s : Int), (L - s).toNat ≤ n →
      ChunkCover ref s (max L s)
        ((rangeStep s L B).map (fun x => ⟨ref, x, min (x + B) L⟩)) := by
  intro n
  induction n with
  | zero =>
    intro s hns
    rw [rangeStep_unfold, if_neg (by omega)]
    simp only [List.map_nil, ChunkCover]
    omega
  | succ n ih =>
    intro s hns
    by_cases hs : s < L
    · rw [rangeStep_unfold, if_pos ⟨hB, hs⟩]
      simp only [List.map_cons, ChunkCover]
      refine ⟨trivial, trivial, by omega, ?_⟩
      by_cases h2 : s + B < L
      · have hmin : min (s + B) L = s + B := by omega
        have hmax : max L s = L := by omega
        have hrec := ih (s + B) (by omega)
        have hmax2 : max L (s + B) = L := by omega
        rw [hmax2] at hrec
        rw [hmin, hmax]
        exact hrec
      · have hmin : min (s + B) L = L := by omega
        rw [hmin, rangeStep_unfold, if_neg (by omega)]
        simp only [List.map_nil, ChunkCover]
        omega
    · rw [rangeStep_unfold, if_neg (by omega)]
      simp only [List.map_nil, ChunkCover]
      omega

theorem binsOf_cover (ref : String) (L B : Int) (hB : 0 < B) :
    ChunkCover ref 0 (max L 0) (binsOf ref L B) := by
  exact chunkCover_rangeStep ref L B hB (L - 0).toNat 0 (by omega)

theorem get_bam_chunks_cover (refs : List (String × Int)) (B : Int) (hB : 0 < B) :
    PlanCover refs (get_bam_chunks refs B) := by
  induction refs with
  | nil => simp [get_bam_chunks, PlanCover]
  | cons rl refs ih =>
    simp only [get_bam_chunks, List.flatMap_cons, PlanCover]
    exact ⟨binsOf rl.1 rl.2 B, (refs.flatMap (fun rl => binsOf rl.1 rl.2 B)), rfl,
      binsOf_cover rl.1 rl.2 B hB, ih⟩

theorem rangeStep_getElem (B : Int) (hB : 0 < B) :
    ∀ (i : Nat) (s L : Int), (rangeStep s L B)[i]? =
      if s + i * B < L then some (s + i * B) else none := by
  intro i
  induction i with
  | zero =>
    intro s L
    rw [rangeStep_unfold]
    by_cases hs : s < L
    · rw [if_pos ⟨hB, hs⟩, List.getElem?_cons_zero, if_pos (by push_cast; omega)]
      norm_num
    · rw [if_neg (by omega), if_neg (by push_cast; omega), List.getElem?_nil]
  | succ i ih =>
    intro s L
    rw [rangeStep_unfold]
    by_cases hs : s < L
    · rw [if_pos ⟨hB, hs⟩, List.getElem?_cons_succ, ih (s + B) L]
      have harith : s + B + i * B = s + (i + 1 : Nat) * B := by
        push_cast
        ring
      rw [harith]
    · have hnn : 0 ≤ (i + 1 : Nat) * B := by
        have h0 : (0 : Int) ≤ ((i + 1 : Nat) : Int) := by positivity
        exact mul_nonneg h0 (le_of_lt hB)
      rw [if_neg (by omega), if_neg (by omega), List.getElem?_nil]

theorem rangeStep_mem_bounds (s L B : Int) (hB : 0 < B) :
    ∀ x ∈ rangeStep s L B, s ≤ x ∧ x < L := by
  have hgen : ∀ (n : Nat) (s2 : Int), (L - s2).toNat ≤ n →
      ∀ x ∈ rangeStep s2 L B, s2 ≤ x ∧ x < L := by
    intro n
    induction n with
    | zero =>
      intro s2 hns x hx
      rw [rangeStep_unfold, if_neg (by omega)] at hx
      exact absurd hx (List.not_mem_nil x)
    | succ n ih =>
      intro s2 hns x hx
      by_cases hc : s2 < L
      · rw [rangeStep_unfold, if_pos ⟨hB, hc⟩] at hx
        rcases List.mem_cons.mp hx with rfl | hx2
        · omega
        · have := ih (s2 + B) (by omega) x hx2
          omega
      · rw [rangeStep_unfold, if_neg (by omega)] at hx
        exact absurd hx (List.not_mem_nil x)
  exact hgen (L - s).toNat s (by omega)

theorem cellDataEquiv_refl (cd : CellData) : cellDataEquiv cd cd :=
  fun _ => rfl

theorem cellDataEquiv_trans (cd1 cd2 cd3 : CellData)
    (h1 : cellDataEquiv cd1 cd2) (h2 : cellDataEquiv cd2 cd3) :
    cellDataEquiv cd1 cd3 :=
  fun cb => (h1 cb).trans (h2 cb)

theorem bumpCounts_comm (rt1 rt2 : String) (c : Counts) :
    bumpCounts rt1 (bumpCounts rt2 c) = bumpCounts rt2 (bumpCounts rt1 c) := by
  unfold bumpCounts
  split_ifs <;> rfl

theorem updateCell_equiv (cd1 cd2 : CellData) (h : cellDataEquiv cd1 cd2)
    (cb rt : String) :
    cellDataEquiv (updateCell cd1 cb rt) (updateCell cd2 cb rt) := by
  intro cb2
  rw [lookup_update, lookup_update, h cb, h cb2]

theorem updateCell_comm (cd : CellData) (cb1 rt1 cb2 rt2 : String) :
    cellDataEquiv (updateCell (updateCell cd cb1 rt1) cb2 rt2)
      (updateCell (updateCell cd cb2 rt2) cb1 rt1) := by
  intro cb
  simp only [lookup_update]
  by_cases h1 : cb = cb1 <;> by_cases h2 : cb = cb2
  · have h12 : cb2 = cb1 := h2.symm.trans h1
    have h21 : cb1 = cb2 := h12.symm
    rw [if_pos h2, if_pos h1, if_pos h12, if_pos h21, h12, bumpCounts_comm]
  · rw [if_pos h1, if_neg h2]
    by_cases h12 : cb1 = cb2
    · exact absurd (h1.trans h12) h2
    · rw [if_neg h12, if_pos h1]
  · rw [if_pos h2, if_neg h1]
    by_cases h21 : cb2 = cb1
    · exact absurd (h2.trans h21) h1
    · rw [if_neg h21, if_pos h2]
  · rw [if_neg h2, if_neg h1, if_neg h1, if_neg h2]

theorem mg_cons_seen (e : UmiRecord) (es : List UmiRecord) (S : Finset String)
    (cd : CellData) (h : e.umi_hash ∈ S) :
    mergeGo (e :: es) S cd = mergeGo es S cd := by
  simp [mergeGo, h]

theorem mg_cons_new (e : UmiRecord) (es : List UmiRecord) (S : Finset String)
    (cd : CellData) (h : e.umi_hash ∉ S) :
    mergeGo (e :: es) S cd =
      mergeGo es (insert e.umi_hash S) (updateCell cd e.cb e.region_type) := by
  simp [mergeGo, h]

theorem mergeGo_congr (es : List UmiRecord) :
    ∀ (S : Finset String) (cd1 cd2 : CellData), cellDataEquiv cd1 cd2 →
      cellDataEquiv (mergeGo es S cd1) (mergeGo es S cd2) := by
  induction es with
  | nil =>
    intro S cd1 cd2 h
    exact h
  | cons e es ih =>
    intro S cd1 cd2 h
    by_cases hs : e.umi_hash ∈ S
    · rw [mg_cons_seen e es S cd1 hs, mg_cons_seen e es S cd2 hs]
      exact ih S cd1 cd2 h
    · rw [mg_cons_new e es S cd1 hs, mg_cons_new e es S cd2 hs]
      exact ih _ _ _ (updateCell_equiv cd1 cd2 h e.cb e.region_type)

theorem mergeGo_perm_aux (es1 es2 : List UmiRecord) (hperm : es1.Perm es2) :
    (∀ e1 ∈ es1, ∀ e2 ∈ es1, e1.umi_hash = e2.umi_hash →
      e1.cb = e2.cb ∧ e1.region_type = e2.region_type) →
    ∀ (S : Finset String) (cd1 cd2 : CellData), cellDataEquiv cd1 cd2 →
      cellDataEquiv (mergeGo es1 S cd1) (mergeGo es2 S cd2) := by
  induction hperm with
  | nil =>
    intro _ S cd1 cd2 h
    exact h
  | @cons x l1 l2 hperm ih =>
    intro hcoh S cd1 cd2 h
    have hcohT : ∀ e1 ∈ l1, ∀ e2 ∈ l1, e1.umi_hash = e2.umi_hash →
        e1.cb = e2.cb ∧ e1.region_type = e2.region_type :=
      fun e1 h1 e2 h2 =>
        hcoh e1 (List.mem_cons_of_mem x h1) e2 (List.mem_cons_of_mem x h2)
    by_cases hs : x.umi_hash ∈ S
    · rw [mg_cons_seen x _ S cd1 hs, mg_cons_seen x _ S cd2 hs]
      exact ih hcohT S cd1 cd2 h
    · rw [mg_cons_new x _ S cd1 hs, mg_cons_new x _ S cd2 hs]
      exact ih hcohT _ _ _ (updateCell_equiv cd1 cd2 h x.cb x.region_type)
  | swap x y l =>
    intro hcoh S cd1 cd2 h
    have hyx : y ∈ y :: x :: l := List.mem_cons_self y (x :: l)
    have hxx : x ∈ y :: x :: l := List.mem_cons_of_mem y (List.mem_cons_self x l)
    by_cases hxy : x.umi_hash = y.umi_hash
    · obtain ⟨hcb, hrt⟩ := hcoh y hyx x hxx hxy.symm
      by_cases hs : y.umi_hash ∈ S
      · rw [mg_cons_seen y _ S cd1 hs, mg_cons_seen x _ S cd1 (hxy ▸ hs),
          mg_cons_seen x _ S cd2 (hxy ▸ hs), mg_cons_seen y _ S cd2 hs]
        exact mergeGo_congr l S cd1 cd2 h
      · rw [mg_cons_new y _ S cd1 hs, mg_cons_seen x _ _ _
            (by rw [hxy]; exact Finset.mem_insert_self _ _),
          mg_cons_new x _ S cd2 (fun hmem => hs (hxy ▸ hmem)),
          mg_cons_seen y _ _ _
            (by rw [← hxy]; exact Finset.mem_insert_self _ _),
          hxy, hcb, hrt]
        exact mergeGo_congr l _ _ _ (updateCell_equiv cd1 cd2 h x.cb x.region_type)
    · by_cases hsx : x.umi_hash ∈ S <;> by_cases hsy : y.umi_hash ∈ S
      · rw [mg_cons_seen y _ S cd1 hsy, mg_cons_seen x _ S cd1 hsx,
          mg_cons_seen x _ S cd2 hsx, mg_cons_seen y _ S cd2 hsy]
        exact mergeGo_congr l S cd1 cd2 h
      · rw [mg_cons_new y _ S cd1 hsy, mg_cons_seen x _ _ _
            (Finset.mem_insert_of_mem hsx),
          mg_cons_seen x _ S cd2 hsx, mg_cons_new y _ S cd2 hsy]
        exact mergeGo_congr l _ _ _ (updateCell_equiv cd1 cd2 h y.cb y.region_type)
      · rw [mg_cons_seen y _ S cd1 hsy, mg_cons_new x _ S cd1 hsx,
          mg_cons_new x _ S cd2 hsx, mg_cons_seen y _ _ _
            (Finset.mem_insert_of_mem hsy)]
        exact mergeGo_congr l _ _ _ (updateCell_equiv cd1 cd2 h x.cb x.region_type)
      · rw [mg_cons_new y _ S cd1 hsy, mg_cons_new x _ _ _
            (by
              simp only [Finset.mem_insert]
              rintro (hh | hh)
              · exact hxy hh
              · exact hsx hh),
          mg_cons_new x _ S cd2 hsx, mg_cons_new y _ _ _
            (by
              simp only [Finset.mem_insert]
              rintro (hh | hh)
              · exact hxy hh.symm
              · exact hsy hh)]
        rw [Finset.Insert.comm]
        refine mergeGo_congr l _ _ _ ?_
        exact cellDataEquiv_trans _ _ _
          (updateCell_comm cd1 y.cb y.region_type x.cb x.region_type)
          (updateCell_equiv _ _ (updateCell_equiv cd1 cd2 h x.cb x.region_type)
            y.cb y.region_type)
  | @trans l1 l2 l3 h1 h2 ih1 ih2 =>
    intro hcoh S cd1 cd2 h
    have hcoh2 : ∀ e1 ∈ l2, ∀ e2 ∈ l2, e1.umi_hash = e2.umi_hash →
        e1.cb = e2.cb ∧ e1.region_type = e2.region_type :=
      fun e1 hm1 e2 hm2 =>
        hcoh e1 (h1.mem_iff.mpr hm1) e2 (h1.mem_iff.mpr hm2)
    exact cellDataEquiv_trans _ _ _ (ih1 hcoh S cd1 cd2 h)
      (ih2 hcoh2 S cd2 cd2 (cellDataEquiv_refl cd2))

theorem chunkCover_succ (ref : String) :
    ∀ (cs : List Chunk) (lo hi : Int) (c : Chunk), ChunkCover ref lo hi cs →
      c ∈ cs → c.stop < hi →
      ∃ c2 ∈ cs, c2.ref = ref ∧ c2.start = c.stop ∧ c.stop < c2.stop := by
  intro cs
  induction cs with
  | nil =>
    intro lo hi c _ hc
    exact absurd hc (List.not_mem_nil c)
  | cons c0 cs ih =>
    intro lo hi c h hc hlt
    simp only [ChunkCover] at h
    obtain ⟨h0ref, h0start, h0lt, hrest⟩ := h
    rcases List.mem_cons.mp hc with rfl | hc2
    · cases cs with
      | nil =>
        simp only [ChunkCover] at hrest
        omega
      | cons c2 cs2 =>
        simp only [ChunkCover] at hrest
        exact ⟨c2, List.mem_cons_of_mem c (List.mem_cons_self c2 cs2),
          hrest.1, hrest.2.1, hrest.2.2.1⟩
    · obtain ⟨c2, hc2mem, hp⟩ := ih c0.stop hi c hrest hc2 hlt
      exact ⟨c2, List.mem_cons_of_mem c0 hc2mem, hp⟩

theorem two_le_length_of_ne_mem {α : Type} (l : List α) (a b : α)
    (ha : a ∈ l) (hb : b ∈ l) (hne : a ≠ b) : 2 ≤ l.length := by
  cases l with
  | nil => exact absurd ha (List.not_mem_nil a)
  | cons x l2 =>
    cases l2 with
    | nil =>
      rcases List.mem_cons.mp ha with rfl | ha2
      · rcases List.mem_cons.mp hb with hb1 | hb2
        · exact absurd hb1.symm hne
        · exact absurd hb2 (List.not_mem_nil b)
      · exact absurd ha2 (List.not_mem_nil a)
    | cons y l3 =>
      simp only [List.length_cons]
      omega

theorem scan_crossing_two (ref : String) (cs : List Chunk) (lo hi : Int)
    (r : BamRead) (hcov : ChunkCover ref lo hi cs) (href : r.ref = ref)
    (haln : r.pos < r.alnEnd) (c : Chunk) (hc : c ∈ cs) (h1 : c.start ≤ r.pos)
    (h2 : r.pos < c.stop) (hhi : c.stop < hi) (hcross : c.stop < r.alnEnd) :
    2 ≤ cs.countP (fun c2 => scans c2 r) := by
  obtain ⟨c2, hc2, h2ref, h2start, h2stop⟩ := chunkCover_succ ref cs lo hi c hcov hc hhi
  obtain ⟨hcref, _, _, _⟩ := chunkCover_props ref cs lo hi hcov c hc
  have hscanc : scans c r = true := by
    have hx : c.start < r.alnEnd := by omega
    simp [scans, hcref, href, hx, h2]
  have hscanc2 : scans c2 r = true := by
    have hx : c2.start < r.alnEnd := by omega
    have hy : r.pos < c2.stop := by omega
    simp [scans, h2ref, href, hx, hy]
  have hne : c ≠ c2 := by
    intro hEq
    rw [← hEq] at h2start
    omega
  rw [List.countP_eq_length_filter]
  exact two_le_length_of_ne_mem _ c c2 (List.mem_filter.mpr ⟨hc, hscanc⟩)
    (List.mem_filter.mpr ⟨hc2, hscanc2⟩) hne

theorem scan_count_one (ref : String) :
    ∀ (cs : List Chunk) (lo hi : Int) (r : BamRead), ChunkCover ref lo hi cs →
      r.ref = ref → lo ≤ r.pos → r.pos < hi → r.pos < r.alnEnd →
      ∀ c ∈ cs, c.start ≤ r.pos → r.pos < c.stop →
      (r.alnEnd ≤ c.stop ∨ c.stop = hi) →
      cs.countP (fun c2 => scans c2 r) = 1 := by
  intro cs
  induction cs with
  | nil =>
    intro lo hi r _ _ _ _ _ c hc
    exact absurd hc (List.not_mem_nil c)
  | cons c0 cs ih =>
    intro lo hi r h href hlo hhi haln c hc hcs hcp hdisj
    simp only [ChunkCover] at h
    obtain ⟨hc0ref, hc0start, hc0lt, hrest⟩ := h
    by_cases hin : r.pos < c0.stop
    · have hceq : c = c0 := by
        rcases List.mem_cons.mp hc with rfl | hc2
        · rfl
        · obtain ⟨_, hstart, _, _⟩ := chunkCover_props ref cs c0.stop hi hrest c hc2
          omega
      subst hceq
      rw [List.countP_cons]
      have hs0 : scans c r = true := by
        have h1 : c.start < r.alnEnd := by omega
        simp [scans, hc0ref, href, h1, hin]
      have hzero : cs.countP (fun c2 => scans c2 r) = 0 := by
        rw [List.countP_eq_zero]
        intro c2 hc2
        obtain ⟨_, hstart, hlt2, hle2⟩ := chunkCover_props ref cs c.stop hi hrest c2 hc2
        intro hsc
        simp only [scans, Bool.and_eq_true, beq_iff_eq, decide_eq_true_eq] at hsc
        obtain ⟨⟨_, hA⟩, _⟩ := hsc
        omega
      rw [hs0, if_pos rfl, hzero]
    · have hs0 : scans c0 r = false := by
        have h3 : ¬ (r.pos < c0.stop) := hin
        simp [scans, h3]
      rw [List.countP_cons, hs0, if_neg Bool.false_ne_true]
      have hcin : c ∈ cs := by
        rcases List.mem_cons.mp hc with rfl | hc2
        · exact absurd hcp hin
        · exact hc2
      rw [ih c0.stop hi r hrest href (by omega) hhi haln c hcin hcs hcp hdisj]

/-- C4 (counterexample): a record with valid barcodes but unrecognized region
code X does prevent the later record of the same (cell, molecule) pair with a
recognized region code from being emitted in the same bin, so the emitted
sequence differs from the one for the input with the bad record removed —
refuting the claim that such a record has no observable effect. -/
theorem claim_C4_counterexample :
    processChunkGo [readBad, readGood] ∅ ≠ processChunkGo [readGood] ∅ := by
  decide

/-- C4 (amended): a record failing the mapping-confidence or barcode-presence
checks is discarded with no effect on the per-invocation seen set, so the
emitted CandidateRecord sequence equals the one for the input with that
record removed; but a confidently mapped record with both barcodes and an
unrecognized region-type code still inserts its dedup key into the seen set,
behaving exactly like an insertion with no emission. -/
theorem claim_C4_amended (rs1 rs2 : List BamRead) (r : BamRead) (S : Finset String) :
    (tag_pass r = false →
      processChunkGo (rs1 ++ r :: rs2) S = processChunkGo (rs1 ++ rs2) S) ∧
    (tag_pass r = true → region_valid r = false →
      processChunkGo (r :: rs2) S = processChunkGo rs2 (insert (keyOf r) S)) := by
  constructor
  · intro hp
    induction rs1 generalizing S with
    | nil => exact pg_cons_skip r rs2 S hp
    | cons x rs1 ih =>
      rw [List.cons_append, List.cons_append]
      by_cases hx : tag_pass x
      · by_cases hs : keyOf x ∈ S
        · rw [pg_cons_seen x _ S hx hs, pg_cons_seen x _ S hx hs, ih S]
        · by_cases hv : region_valid x
          · rw [pg_cons_emit x _ S hx hs hv, pg_cons_emit x _ S hx hs hv, ih _]
          · rw [pg_cons_noregion x _ S hx hs (by simpa using hv),
              pg_cons_noregion x _ S hx hs (by simpa using hv), ih _]
      · rw [pg_cons_skip x _ S (by simpa using hx),
          pg_cons_skip x _ S (by simpa using hx), ih S]
  · intro hp hv
    by_cases hs : keyOf r ∈ S
    · rw [pg_cons_seen r rs2 S hp hs, Finset.insert_eq_self.mpr hs]
    · exact pg_cons_noregion r rs2 S hp hs hv

/-- C4 (witness): dropping a MAPQ-10 record leaves the emitted sequence of a
concrete bin unchanged. -/
theorem claim_C4_witness :
    processChunkGo ([] ++ readLowQ :: [readGood]) ∅ =
      processChunkGo ([] ++ [readGood]) ∅ :=
  (claim_C4_amended [] [readGood] readLowQ ∅).1 (by decide)

/-- C5 (counterexample): under overlap-scoped iteration, the record with
start 5 and alignment end 15 is yielded by both 10-base bins of a length-20
reference, so it is not scanned by exactly one bin. -/
theorem claim_C5_counterexample :
    (get_bam_chunks demoRefs 10).countP (fun c => scans c readSpan) ≠ 1 ∧
      (get_bam_chunks demoRefs 10).countP (fun c => scans c readSpan) = 2 := by
  constructor
  · decide
  · decide

/-- C5 (amended): over any chunk cover of a reference span, a record with a
positive-length alignment starting in the span is scanned by at least the
bin containing its start coordinate; it is scanned by exactly one bin
precisely when its alignment ends within the bin containing its start or
that bin is the final bin of the cover; and whenever the alignment crosses
an interior bin boundary, the record is yielded to at least two bins, hence
to more than one extraction worker. -/
theorem claim_C5_amended (ref : String) (cs : List Chunk) (lo hi : Int)
    (r : BamRead) (hcov : ChunkCover ref lo hi cs) (href : r.ref = ref)
    (hlo : lo ≤ r.pos) (hhi : r.pos < hi) (haln : r.pos < r.alnEnd) :
    (∃ c ∈ cs, (c.start ≤ r.pos ∧ r.pos < c.stop) ∧ scans c r = true) ∧
    (∀ c ∈ cs, c.start ≤ r.pos → r.pos < c.stop →
      (cs.countP (fun c2 => scans c2 r) = 1 ↔
        (r.alnEnd ≤ c.stop ∨ c.stop = hi))) ∧
    (∀ c ∈ cs, c.start ≤ r.pos → r.pos < c.stop → c.stop < hi →
      c.stop < r.alnEnd → 2 ≤ cs.countP (fun c2 => scans c2 r)) := by
  refine ⟨chunkCover_scan_exists ref cs lo hi r hcov href hlo hhi haln, ?_, ?_⟩
  · intro c hc h1 h2
    constructor
    · intro hcount
      by_contra hcon
      push_neg at hcon
      obtain ⟨ha, hb⟩ := hcon
      have hle := (chunkCover_props ref cs lo hi hcov c hc).2.2.2
      have hlt : c.stop < hi := lt_of_le_of_ne hle hb
      have h2c := scan_crossing_two ref cs lo hi r hcov href haln c hc h1 h2 hlt
        (by omega)
      omega
    · intro hdisj
      exact scan_count_one ref cs lo hi r hcov href hlo hhi haln c hc h1 h2 hdisj
  · intro c hc h1 h2 hlt hcross
    exact scan_crossing_two ref cs lo hi r hcov href haln c hc h1 h2 hlt hcross

/-- C9 (counterexample): a serialization failure after zero lines still
leaves the destination truncated to an empty file rather than restoring the
pre-run state, refuting the all-or-nothing claim for OutputError. -/
theorem claim_C9_counterexample :
    (run_pipeline_effect demoRefs [] 10 1 false (some 0) none).2 = false ∧
      (run_pipeline_effect demoRefs [] 10 1 false (some 0) none).1 ≠ none := by
  constructor
  · decide
  · decide

/-- C9 (amended): a worker-level fatal error surfaces from the pool before
the destination is opened, so the output location keeps its prior state; but
when serialization fails after k lines, the destination is left holding the
truncated k-line prefix — a partial file remains for mid-write failures. -/
theorem claim_C9_amended (refs : List (String × Int)) (reads : List BamRead)
    (B : Int) (t : Nat) (fa : Option Nat) (pre : Option (List OutLine)) :
    run_pipeline_effect refs reads B t true fa pre = (pre, false) ∧
    (∀ k : Nat, run_pipeline_effect refs reads B t false (some k) pre =
      (some ((csv_lines (run_pipeline refs reads B t)).take k), false)) :=
  ⟨rfl, fun _ => rfl⟩

/-- C10: the dedup fingerprint is a function of the single joined string
cell:umi alone, so distinct pairs with equal joined strings receive the
identical key — the pairs (A:B, C) and (A, B:C) collide independently of any
64-bit hash collision, and the extractor collapses them into one candidate. -/
theorem claim_C10 :
    (∀ cb ub cb2 ub2 : String, cb ++ ":" ++ ub = cb2 ++ ":" ++ ub2 →
      hash_umi cb ub = hash_umi cb2 ub2) ∧
    hash_umi "A:B" "C" = hash_umi "A" "B:C" ∧
    processChunkGo [readAlias1, readAlias2] ∅ =
      [⟨"A:B", "C", "E", hash_umi "A:B" "C"⟩] := by
  refine ⟨?_, by decide, by decide⟩
  intro cb ub cb2 ub2 h
  simpa [hash_umi] using h

/-- C10 (witness): the general joined-string property applied at the
concrete aliasing pair. -/
theorem claim_C10_witness :
    hash_umi "A:B" "C" = hash_umi "A" "B:C" :=
  claim_C10.1 "A:B" "C" "A" "B:C" (by decide)

/-- C5 (witness): the second 10-base bin of a length-20 reference contains
the record at position 12 with alignment end 13 entirely, and by the
characterization that record is scanned by exactly one of the two bins. -/
theorem claim_C5_witness :
    ([⟨"chr1", 0, 10⟩, ⟨"chr1", 10, 20⟩] : List Chunk).countP
      (fun c2 => scans c2 readGood) = 1 :=
  ((claim_C5_amended "chr1" [⟨"chr1", 0, 10⟩, ⟨"chr1", 10, 20⟩] 0 20 readGood
      ⟨rfl, rfl, by decide, rfl, rfl, by decide, rfl⟩
      rfl (by decide) (by decide) (by decide)).2.1
    ⟨"chr1", 10, 20⟩ (by decide) (by decide) (by decide)).mpr (Or.inl (by decide))

/-- C6: for every reference list and positive bin size B, get_bam_chunks is
the per-reference concatenation of the bins (0, min(B,L)), (B, min(2B,L)),
..., which form an ordered, contiguous, pairwise-disjoint cover of [0, L)
with every bin of positive size at most B; every non-final bin of a
reference has size exactly B, and a reference of non-positive length
contributes zero bins.  The partitioner is a total function: no error
conditions exist. -/
theorem claim_C6 (refs : List (String × Int)) (B : Int) (hB : 0 < B) :
    get_bam_chunks refs B = refs.flatMap (fun rl => binsOf rl.1 rl.2 B) ∧
    ∀ (ref : String) (L : Int),
      (∀ i : Nat, (binsOf ref L B)[i]? =
        if (i : Int) * B < L then
          some ⟨ref, (i : Int) * B, min ((i : Int) * B + B) L⟩ else none) ∧
      ChunkCover ref 0 (max L 0) (binsOf ref L B) ∧
      (∀ c ∈ binsOf ref L B, 0 < c.stop - c.start ∧ c.stop - c.start ≤ B) ∧
      (∀ (i : Nat) (c c2 : Chunk), (binsOf ref L B)[i]? = some c →
        (binsOf ref L B)[i + 1]? = some c2 → c.stop - c.start = B) ∧
      (L ≤ 0 → binsOf ref L B = []) := by
  refine ⟨rfl, fun ref L => ?_⟩
  have hidx : ∀ i : Nat, (binsOf ref L B)[i]? =
      if (i : Int) * B < L then
        some ⟨ref, (i : Int) * B, min ((i : Int) * B + B) L⟩ else none := by
    intro i
    rw [binsOf, List.getElem?_map, rangeStep_getElem B hB i 0 L]
    simp only [zero_add]
    by_cases h : (i : Int) * B < L
    · rw [if_pos h, if_pos h, Option.map_some']
    · rw [if_neg h, if_neg h, Option.map_none']
  refine ⟨hidx, binsOf_cover ref L B hB, ?_, ?_, ?_⟩
  · intro c hc
    rw [binsOf, List.mem_map] at hc
    obtain ⟨x, hx, rfl⟩ := hc
    obtain ⟨h1, h2⟩ := rangeStep_mem_bounds 0 L B hB x hx
    dsimp only
    omega
  · intro i c c2 hc hc2
    rw [hidx i] at hc
    rw [hidx (i + 1)] at hc2
    by_cases h : (i : Int) * B < L
    · rw [if_pos h] at hc
      by_cases h2 : ((i + 1 : Nat) : Int) * B < L
      · rw [if_pos h2] at hc2
        obtain rfl : (⟨ref, (i : Int) * B, min ((i : Int) * B + B) L⟩ : Chunk) = c :=
          Option.some_injective _ hc
        have hpc : ((i + 1 : Nat) : Int) * B = (i : Int) * B + B := by
          push_cast
          ring
        dsimp only
        omega
      · rw [if_neg h2] at hc2
        exact absurd hc2 (by simp)
    · rw [if_neg h] at hc
      exact absurd hc (by simp)
  · intro hL
    rw [binsOf, rangeStep_unfold, if_neg (by omega)]
    rfl

/-- C6 (witness): the partitioner applied to a single length-25 reference
with bin size 10 produces a cover of [0, 25). -/
theorem claim_C6_witness :
    ChunkCover "chr1" 0 (max 25 0) (binsOf "chr1" 25 10) :=
  ((claim_C6 [("chr1", 25)] 10 (by decide)).2 "chr1" 25).2.1

/-- C7: write_output_csv emits one row per cell, in which total_reads is the
sum of the three region counts, each proportion equals count/total when
total is positive and is exactly 0 when total is 0; the division is guarded
by the positivity test, so the reporter is a total function that never
divides by zero and never raises. -/
theorem claim_C7 (cell_data : CellData) :
    (write_output_csv cell_data).length = cell_data.length ∧
    ∀ row ∈ write_output_csv cell_data,
      row.total_reads = row.exon_reads + row.intron_reads + row.intergenic_reads ∧
      (0 < row.total_reads →
        row.exon_prop = (row.exon_reads : ℚ) / (row.total_reads : ℚ) ∧
        row.intron_prop = (row.intron_reads : ℚ) / (row.total_reads : ℚ) ∧
        row.intergenic_prop = (row.intergenic_reads : ℚ) / (row.total_reads : ℚ)) ∧
      (row.total_reads = 0 →
        row.exon_prop = 0 ∧ row.intron_prop = 0 ∧ row.intergenic_prop = 0) := by
  constructor
  · simp [write_output_csv]
  · intro row hrow
    simp only [write_output_csv, List.mem_map] at hrow
    obtain ⟨kc, hkc, rfl⟩ := hrow
    split_ifs with h
    · exact ⟨rfl, fun _ => ⟨rfl, rfl, rfl⟩, fun h0 => absurd h0 (by
        show ¬ (kc.2.E + kc.2.N + kc.2.I = 0)
        omega)⟩
    · exact ⟨rfl, fun hpos => absurd hpos (by
        show ¬ (0 < kc.2.E + kc.2.N + kc.2.I)
        omega), fun _ => ⟨rfl, rfl, rfl⟩⟩

/-- C7 (witness): the row written for a cell with counts (1, 1, 0) has total
2 equal to the sum of its counts. -/
theorem claim_C7_witness :
    (⟨"cellA", 2, 1, 1 / 2, 1, 1 / 2, 0, 0⟩ : ReportRow).total_reads =
      (⟨"cellA", 2, 1, 1 / 2, 1, 1 / 2, 0, 0⟩ : ReportRow).exon_reads +
        (⟨"cellA", 2, 1, 1 / 2, 1, 1 / 2, 0, 0⟩ : ReportRow).intron_reads +
        (⟨"cellA", 2, 1, 1 / 2, 1, 1 / 2, 0, 0⟩ : ReportRow).intergenic_reads :=
  (((claim_C7 [("cellA", ⟨1, 1, 0⟩)]).2 ⟨"cellA", 2, 1, 1 / 2, 1, 1 / 2, 0, 0⟩
    (by norm_num [write_output_csv]))).1

/-- C1 (counterexample): with a confident X-region record of cellA/umi1
preceding a confident exonic record of the same pair in one bin, the
pipeline counts 0 molecules for cellA while the number of distinct
(cell, molecule) pairs with satisfied filters and a recognized region type
is 1 — the first record consumed the dedup key before the region check. -/
theorem claim_C1_counterexample :
    sumTriple (lookupCounts (run_pipeline demoRefs demoInput 100 1) "cellA") ≠
      specC1PairCount demoInput "cellA" := by
  decide

/-- C1 (amended): for a coordinate-sorted input on references with distinct
names, provided every confidently mapped record bearing both barcode tags
also carries a recognized region-type code, and any two such records with
the same joined-string dedup key carry the same cell barcode, the final
exonic+intronic+intergenic count of a cell equals the number of distinct
dedup keys among the confidently mapped, both-tags-present records with
that cell barcode — a value independent of the bin size and of the thread
count (pool.map returns results in input order regardless of threads).
Barcode presence, not non-emptiness, is what the code checks. -/
theorem claim_C1_amended (refs : List (String × Int)) (X : List BamRead)
    (cell : String) (B : Int) (t1 t2 : Nat)
    (hnd : (refs.map Prod.fst).Nodup) (hsort : PlanSorted refs X)
    (hreg : regionProviso X) (hcoh : cbCoherent X) (hB : 0 < B) :
    sumTriple (lookupCounts (run_pipeline refs X B t1) cell) =
        (keysWithCb X cell).card ∧
      run_pipeline refs X B t1 = run_pipeline refs X B t2 := by
  have hcanon : run_pipeline refs X B t1 = foldUpdates [] (processChunkGo X ∅) :=
    pipeline_canonical refs (get_bam_chunks refs B) X hnd
      (get_bam_chunks_cover refs B hB) hsort hreg
  constructor
  · rw [hcanon, sum_foldUpdates _ [] cell (pg_region_valid_mem X ∅),
      pg_countP_cb cell X ∅ hreg hcoh, Finset.sdiff_empty]
    have h0 : sumTriple (lookupCounts ([] : CellData) cell) = 0 := rfl
    omega
  · rfl

/-- C1 (witness): the amended count equation at a one-record input with bin
size 7 and 3 threads. -/
theorem claim_C1_witness :
    sumTriple (lookupCounts (run_pipeline [("chr1", 20)] [wRead] 7 3) "cellA") =
      (keysWithCb [wRead] "cellA").card :=
  (claim_C1_amended [("chr1", 20)] [wRead] "cellA" 7 3 5 (by decide)
    ⟨[wRead], [], rfl, by decide, by simp, by simp, rfl⟩
    (by unfold regionProviso; decide) (by unfold cbCoherent; decide) (by decide)).1

/-- C2 (counterexample): the same two-record input yields an empty
CellCounters with a single bin of size 100 but counts one exonic molecule
for cellA with bins of size 10, because the unrecognized-region record
consumes the pair's key only when it shares a bin with the exonic record —
partitioning does change which molecules are counted. -/
theorem claim_C2_counterexample :
    run_pipeline demoRefs demoInput 100 1 ≠ run_pipeline demoRefs demoInput 10 1 := by
  decide

/-- C2 (amended): for a coordinate-sorted input on references with distinct
names, provided every confidently mapped record bearing both barcode tags
also carries a recognized region-type code, any two chunk covers of the
reference spans — in particular the whole input as one bin per reference
versus any partition into N bins — yield literally identical final
CellCounters. -/
theorem claim_C2_amended (refs : List (String × Int)) (chunks1 chunks2 : List Chunk)
    (X : List BamRead) (hnd : (refs.map Prod.fst).Nodup)
    (h1 : PlanCover refs chunks1) (h2 : PlanCover refs chunks2)
    (hsort : PlanSorted refs X) (hreg : regionProviso X) :
    merge_chunk_results_streaming (chunks1.map (process_chunk_streaming X)) =
      merge_chunk_results_streaming (chunks2.map (process_chunk_streaming X)) := by
  rw [pipeline_canonical refs chunks1 X hnd h1 hsort hreg,
    pipeline_canonical refs chunks2 X hnd h2 hsort hreg]

/-- C2 (witness): one bin covering [0, 20) versus two bins of size 10
produce the same CellCounters on a one-record input. -/
theorem claim_C2_witness :
    merge_chunk_results_streaming
        (([⟨"chr1", 0, 20⟩] : List Chunk).map (process_chunk_streaming [wRead])) =
      merge_chunk_results_streaming
        (([⟨"chr1", 0, 10⟩, ⟨"chr1", 10, 20⟩] : List Chunk).map
          (process_chunk_streaming [wRead])) :=
  claim_C2_amended [("chr1", 20)] [⟨"chr1", 0, 20⟩] [⟨"chr1", 0, 10⟩, ⟨"chr1", 10, 20⟩]
    [wRead] (by decide)
    ⟨[⟨"chr1", 0, 20⟩], [], by simp, ⟨rfl, rfl, by decide, rfl⟩, rfl⟩
    ⟨[⟨"chr1", 0, 10⟩, ⟨"chr1", 10, 20⟩], [], by simp,
      ⟨rfl, rfl, by decide, rfl, rfl, by decide, rfl⟩, rfl⟩
    ⟨[wRead], [], rfl, by decide, by simp, by simp, rfl⟩
    (by unfold regionProviso; decide)

/-- C3 (counterexample): two one-record batches carrying the same dedup key
with different region codes merge to different CellCounters in the two
consumption orders (exonic wins in one order, intronic in the other), so the
aggregation result does depend on batch order in general. -/
theorem claim_C3_counterexample :
    ([batchE, batchN] : List (List UmiRecord)).Perm [batchN, batchE] ∧
      lookupCounts (merge_chunk_results_streaming [batchE, batchN]) "cellA" ≠
        lookupCounts (merge_chunk_results_streaming [batchN, batchE]) "cellA" :=
  ⟨List.Perm.swap batchN batchE [], by decide⟩

/-- C3 (amended): when any two candidate records across all batches that
share a dedup key agree on cell barcode and region type, merging the
batches in any two permuted orders yields CellCounters that are equal as
maps from cell barcode to counter triple (row order may differ). -/
theorem claim_C3_amended (batches1 batches2 : List (List UmiRecord))
    (hperm : batches1.Perm batches2) (hcoh : umiCoherent batches1.flatten) :
    cellDataEquiv (merge_chunk_results_streaming batches1)
      (merge_chunk_results_streaming batches2) :=
  mergeGo_perm_aux batches1.flatten batches2.flatten hperm.flatten hcoh ∅ [] []
    (cellDataEquiv_refl [])

/-- C3 (witness): two batches with distinct keys merged in both orders agree
as maps. -/
theorem claim_C3_witness :
    cellDataEquiv (merge_chunk_results_streaming [batchE, batchI])
      (merge_chunk_results_streaming [batchI, batchE]) :=
  claim_C3_amended [batchE, batchI] [batchI, batchE]
    (List.Perm.swap batchI batchE []) (by unfold umiCoherent; decide)

/-- C8: on the four synthetic records (cellA,umi1,confident,E) twice,
(cellA,umi2,confident,N), (cellB,umi3,confident,I), the pipeline produces
exactly the counters cellA = (1,1,0) and cellB = (0,0,1), and the reporter
emits exactly two rows: cellA with total 2, exon 1 (1/2), intron 1 (1/2),
intergenic 0 (0); cellB with total 1, exon 0, intron 0, intergenic 1 (1). -/
theorem claim_C8 :
    run_pipeline c8refs c8reads BIN_SIZE 4 =
        [("cellA", ⟨1, 1, 0⟩), ("cellB", ⟨0, 0, 1⟩)] ∧
      write_output_csv (run_pipeline c8refs c8reads BIN_SIZE 4) =
        [⟨"cellA", 2, 1, 1 / 2, 1, 1 / 2, 0, 0⟩,
          ⟨"cellB", 1, 0, 0, 0, 0, 1, 1⟩] := by
  have hrun : run_pipeline c8refs c8reads BIN_SIZE 4 =
      [("cellA", ⟨1, 1, 0⟩), ("cellB", ⟨0, 0, 1⟩)] := by
    decide
  refine ⟨hrun, ?_⟩
  rw [hrun]
  norm_num [write_output_csv]
